import Mathlib

/-!
Verification development for the ts-hbedf repository (HD-key based HBEDF
construction: Key, Extract, Shuffle, Expand phases).

Shallow embedding conventions:
- Byte strings (Uint8Array) are `List Nat`.
- JavaScript numbers are modelled as `ℚ` for exactly representable values
  (plus explicit NaN / non-number variants where the code checks `typeof` and
  `isNaN`); 32-bit coercions (`| 0`, `>>> 0`, `>>`, `|`) are modelled exactly.
- The external collaborators (hash, HMAC, scrypt, HD key hierarchy, path
  parser) are an abstract structure of primitives `Prims`; the hierarchy of
  `newSchema`, `newPath` and `deriveNode` is collapsed into one opaque
  function since the code only composes them.
- Fallible code returns `Except Err`.
-/

set_option maxRecDepth 20000

namespace Hbedf

/-! ### JavaScript 32-bit numeric semantics -/

/-- ToUint32 of an exact integer value (JS `x >>> 0`). -/
def toUint32 (x : Int) : Nat := (x % 4294967296).toNat

/-- ToInt32 of an exact integer value (JS `x | 0` on an integral value). -/
def toInt32 (x : Int) : Int := (x + 2147483648) % 4294967296 - 2147483648

/-- JS ToInt32 truncation of a rational value: truncate toward zero, then wrap. -/
def qTrunc (q : ℚ) : Int := if 0 ≤ q then ⌊q⌋ else ⌈q⌉

/-- JS `q >>> 0` on a rational value. -/
def qToUint32 (q : ℚ) : Nat := toUint32 (qTrunc q)

/-- JS bitwise or `a | b` (both operands pass through ToInt32). -/
def jsOr (a b : Int) : Int := toInt32 ((Nat.lor (toUint32 a) (toUint32 b) : Nat) : Int)

/-- JS arithmetic right shift `a >> k` (sign-extending shift on the int32 value). -/
def jsSar (a : Int) (k : Nat) : Int := toInt32 a / 2 ^ k

/-- JS unsigned right shift `a >>> k`. -/
def jsShrU (a : Int) (k : Nat) : Nat := toUint32 a >>> k

/-- Big-endian 4-byte encoding of a 32-bit value (`DataView.setUint32(0, n, false)`). -/
def be32 (n : Nat) : List Nat :=
  [n / 16777216 % 256, n / 65536 % 256, n / 256 % 256, n % 256]

/-- Big-endian unsigned 32-bit read of the first four bytes
(`DataView.getUint32(0, false)`). -/
def beU32 (l : List Nat) : Nat :=
  l.getD 0 0 * 16777216 + l.getD 1 0 * 65536 + l.getD 2 0 * 256 + l.getD 3 0

/-! ### Data model -/

/-- HD key as consumed by this library: raw key bytes and chain-code bytes
(`key.key` and `key.code`). -/
structure HDKey where
  key : List Nat
  code : List Nat
deriving DecidableEq

/-- Error kinds of the specification. The code raises `TypeError` for
non-numeric `c`/`mem` and `RangeError` for out-of-range values; the
specification groups both under InvalidIterationCount / InvalidMemoryBudget,
which is the granularity used here. -/
inductive Err where
  | invalidIterationCount
  | invalidMemoryBudget
  | seqLenExceeded
  | outLenExceeded
deriving DecidableEq

/-- Decidable equality for `Except`, used to evaluate concrete runs. -/
instance {α β : Type} [DecidableEq α] [DecidableEq β] : DecidableEq (Except α β) :=
  fun x y =>
    match x, y with
    | .error a, .error b =>
      if h : a = b then isTrue (congrArg Except.error h)
      else isFalse fun he => h (Except.error.inj he)
    | .error _, .ok _ => isFalse fun he => Except.noConfusion he
    | .ok _, .error _ => isFalse fun he => Except.noConfusion he
    | .ok a, .ok b =>
      if h : a = b then isTrue (congrArg Except.ok h)
      else isFalse fun he => h (Except.ok.inj he)

/-- A JS number-typed input as validated by `typeof x !== "number" || isNaN(x)`:
an exact finite numeric value, NaN, or a non-number value. -/
inductive JsVal where
  | num (q : ℚ)
  | nan
  | other
deriving DecidableEq

/-- External collaborators (out of scope per the specification, consumed at
their interface): one-shot hash, keyed MAC, memory-hard KDF (`scrypt` and its
`scryptAsync` twin), and the HD key hierarchy with path parsing collapsed into
`deriveNode`.  The `Prop` fields record interface facts the code relies on:
HMAC digests have the fixed positive output length of the hash, and digests
are at least four bytes (the code reads a `Uint32` from digest prefixes). -/
structure Prims where
  hLen : Nat
  hmac : List Nat → List Nat → List Nat
  hash : List Nat → List Nat
  scrypt : List Nat → List Nat → Nat → List Nat
  scryptA : List Nat → List Nat → Nat → List Nat
  deriveMaster : List Nat → HDKey
  deriveNode : HDKey → String → String → HDKey
  deriveChild : HDKey → Nat → HDKey
  defaultSchema : String
  hLen_ge4 : 4 ≤ hLen
  hmac_length : ∀ k m, (hmac k m).length = hLen
  hash_len4 : ∀ m, 4 ≤ (hash m).length

/-! ### src/crypto/mem.ts -/

/-- `calcN` from src/crypto/mem.ts: maps the memory budget (MiB) to the
scrypt N parameter, with the exact JS int32 semantics of the bit-or
cascade. -/
def calcN (mem : ℚ) : Nat :=
  let memCost : ℚ := mem * 1024 * 1024
  let rawN : ℚ := memCost / (2 * 1024)
  let n0 : Int := toInt32 (qTrunc rawN)
  let n1 : Int := ((toUint32 n0 : Nat) : Int)
  let n2 : Int := jsOr n1 (jsSar n1 1)
  let n3 : Int := jsOr n2 (jsSar n2 2)
  let n4 : Int := jsOr n3 (jsSar n3 4)
  let n5 : Int := jsOr n4 (jsSar n4 8)
  let n6 : Int := jsOr n5 (jsSar n5 16)
  jsShrU (n6 + 1) 1

/-! ### src/shuffle/rng.ts -/

/-- `rng` from src/shuffle/rng.ts: HMAC keyed with `info`, updated with `msg`
then with the big-endian encoding of `c >>> 0`; first four digest bytes read
as a big-endian unsigned 32-bit integer. -/
def rng (P : Prims) (msg : List Nat) (info : List Nat) (c : Nat) : Nat :=
  let c2 := c % 4294967296
  beU32 ((P.hmac info (msg ++ be32 c2)).take 4)

/-! ### src/shuffle/fy.ts -/

/-- `flatten_arrays` from src/shuffle/fy.ts: concatenates the byte arrays in
order (offset-copy loop). -/
def flatten_arrays : List (List Nat) → List Nat
  | [] => []
  | a :: as => a ++ flatten_arrays as

/-- `calc_salt` from src/shuffle/fy.ts: HMAC over the message followed by the
bytes `SALT`, truncated to 16 bytes. -/
def calc_salt (P : Prims) (key : List Nat) (msg : List Nat) : List Nat :=
  (P.hmac key (msg ++ [83, 65, 76, 84])).take 16

/-- JS swap `[a[i], a[j]] = [a[j], a[i]]` on a list (both indices in bounds at
every use site). -/
def swapL {α : Type} [Inhabited α] (a : List α) (i j : Nat) : List α :=
  let vi := a.getD i default
  let vj := a.getD j default
  (a.set i vj).set j vi

/-- The duck-typed `Uint8Array | Uint8Array[]` argument of the shuffle: a
shuffle unit is either an opaque element or a single byte. -/
inductive FYIn where
  | arrs (a : List (List Nat))
  | bytes (b : List Nat)
deriving DecidableEq

/-- `array.length` of the shuffle argument. -/
def FYIn.len : FYIn → Nat
  | .arrs a => a.length
  | .bytes b => b.length

/-- The flattened byte view (`flatten_arrays(array)` in the element case,
the array itself in the byte case). -/
def FYIn.flat : FYIn → List Nat
  | .arrs a => flatten_arrays a
  | .bytes b => b

/-- `array.slice(0, k)` at unit granularity. -/
def FYIn.takeU : FYIn → Nat → FYIn
  | .arrs a, k => .arrs (a.take k)
  | .bytes b, k => .bytes (b.take k)

/-- Swap of the units at positions `i` and `j`. -/
def FYIn.swapU : FYIn → Nat → Nat → FYIn
  | .arrs a, i, j => .arrs (swapL a i j)
  | .bytes b, i, j => .bytes (swapL b i j)

/-- The list of shuffle units: the elements at element granularity, the
single buffer at byte granularity (the latter alternative is unused; the
byte-granularity unit list is the byte list itself). -/
def FYIn.units : FYIn → List (List Nat)
  | .arrs a => a
  | .bytes b => [b]

/-- One iteration of the Fisher-Yates loop body at index `i`:
`rem` is the flattened remainder `[0..i]`, `num = rng(h, rem, dk, i)`,
`j = num % (i + 1)`, then units `i` and `j` are swapped. -/
def fyStep (P : Prims) (dk : List Nat) (i : Nat) (a : FYIn) : FYIn :=
  let rem := (a.takeU (i + 1)).flat
  let num := rng P rem dk i
  a.swapU i (num % (i + 1))

/-- The Fisher-Yates loop, `for (let i = l - 1; i > 0; i--)`, run from the
given starting index down to 1. -/
def fyGo (P : Prims) (dk : List Nat) : Nat → FYIn → FYIn
  | 0, a => a
  | i + 1, a => fyGo P dk i (fyStep P dk (i + 1) a)

/-- `fySync` from src/shuffle/fy.ts. After the `l > 0xFFFFFFFF` guard the
code re-reads `l >>> 0`, the identity on the guarded range. The final
`out.set(f)` copy is the flattened shuffled value. -/
def fySync (P : Prims) (array : FYIn) (key : HDKey) (N : Nat) :
    Except Err (List Nat) :=
  let l := array.len
  if l > 4294967295 then .error .seqLenExceeded
  else
    let msg := array.flat
    let salt := calc_salt P key.key msg
    let dk := P.scrypt key.code salt N
    .ok (fyGo P dk (l - 1) array).flat

/-- `fyAsync` from src/shuffle/fy.ts: identical to `fySync` except that the
key stream comes from awaited `scryptAsync`. -/
def fyAsync (P : Prims) (array : FYIn) (key : HDKey) (N : Nat) :
    Except Err (List Nat) :=
  let l := array.len
  if l > 4294967295 then .error .seqLenExceeded
  else
    let msg := array.flat
    let salt := calc_salt P key.key msg
    let dk := P.scryptA key.code salt N
    .ok (fyGo P dk (l - 1) array).flat

/-- The unit sequence produced by the element-granularity loop of `fySync`
(named for use in statements): the shuffled units before flattening. -/
def fyUnitsSync (P : Prims) (a : List (List Nat)) (k : HDKey) (N : Nat) :
    List (List Nat) :=
  (fyGo P (P.scrypt k.code (calc_salt P k.key (flatten_arrays a)) N)
    (a.length - 1) (.arrs a)).units

/-- The byte sequence produced by the byte-granularity loop of `fySync`. -/
def fyBytesResSync (P : Prims) (b : List Nat) (k : HDKey) (N : Nat) : List Nat :=
  (fyGo P (P.scrypt k.code (calc_salt P k.key b) N) (b.length - 1) (.bytes b)).flat

/-- As `fyUnitsSync` for the suspending path. -/
def fyUnitsAsync (P : Prims) (a : List (List Nat)) (k : HDKey) (N : Nat) :
    List (List Nat) :=
  (fyGo P (P.scryptA k.code (calc_salt P k.key (flatten_arrays a)) N)
    (a.length - 1) (.arrs a)).units

/-- As `fyBytesResSync` for the suspending path. -/
def fyBytesResAsync (P : Prims) (b : List Nat) (k : HDKey) (N : Nat) : List Nat :=
  (fyGo P (P.scryptA k.code (calc_salt P k.key b) N) (b.length - 1) (.bytes b)).flat

/-! ### src/crypto/strengthen.ts -/

/-- The iteration loop of `strengthen_element`: iteration `i` MACs the
big-endian encoding of `i` followed by the current element value under the
child key; the digest becomes the next element value. -/
def strengthen_go (P : Prims) (key : List Nat) : Nat → Nat → List Nat → List Nat
  | _, 0, element => element
  | i, fuel + 1, element => strengthen_go P key (i + 1) fuel (P.hmac key (be32 i ++ element))

/-- `strengthen_element` from src/crypto/strengthen.ts; the code first
truncates the iteration count with `c = c >>> 0`. -/
def strengthen_element (P : Prims) (c : ℚ) (key : List Nat) (element : List Nat) :
    List Nat :=
  strengthen_go P key 0 (qToUint32 c) element

/-- `strengthen` from src/crypto/strengthen.ts: derives the child key at the
fixed index 1398035013 (bytes `STRENGTH` truncated to a uint32 tag) and
strengthens every element into a fresh output array. -/
def strengthen (P : Prims) (arrays : List (List Nat)) (key : HDKey) (c : ℚ) :
    List (List Nat) :=
  let hd := P.deriveChild key 1398035013
  arrays.map (fun e => strengthen_element P c hd.key e)

/-! ### src/hbedf.ts -/

/-- The `typeof c !== "number" || isNaN(c)` then `c < 100` validation of the
iterations count, as in `extract`. -/
def validC : JsVal → Except Err ℚ
  | .num q => if q < 100 then .error .invalidIterationCount else .ok q
  | .nan => .error .invalidIterationCount
  | .other => .error .invalidIterationCount

/-- The `typeof mem !== "number" || isNaN(mem)` then `mem < 1` validation of
the memory budget, as in `extract`. -/
def validMem : JsVal → Except Err ℚ
  | .num q => if q < 1 then .error .invalidMemoryBudget else .ok q
  | .nan => .error .invalidMemoryBudget
  | .other => .error .invalidMemoryBudget

/-- `extract` from src/hbedf.ts: validate `c`, strengthen, validate `mem`,
compute `N`. Note the program order: strengthening runs before `mem` is
validated. -/
def extract (P : Prims) (ibm : List (List Nat)) (key : HDKey) (c mem : JsVal) :
    Except Err (List (List Nat) × Nat) :=
  (validC c).bind fun cq =>
    let sbm := strengthen P ibm key cq
    (validMem mem).map fun mq => (sbm, calcN mq)

/-- `digest` from src/hbedf.ts: plain HMAC of `data` under `key`. -/
def digest (P : Prims) (key data : List Nat) : List Nat := P.hmac key data

/-- `key` from src/hbedf.ts: append the domain tag bytes `HBEDF` to the
secret, derive the master key, then the node key along the parsed path. -/
def key (P : Prims) (secret : List Nat) (schema path : String) : HDKey :=
  let s := secret ++ [72, 66, 69, 68, 70]
  P.deriveNode (P.deriveMaster s) schema path

/-- The checksum between the two shuffle passes: first four bytes of a plain
hash, read as a big-endian unsigned 32-bit integer. -/
def checksum_index (P : Prims) (s : List Nat) : Nat := beU32 ((P.hash s).take 4)

/-- `shuffleSync` from src/hbedf.ts: child key at the fixed index 1397249350
(bytes `SHUF` as a uint32 tag), element-granularity pass, data-dependent
child key at the checksum index, byte-granularity pass. The `typeof N`
check always passes since `calcN` returns a number. -/
def shuffleSync (P : Prims) (sbm : List (List Nat)) (key : HDKey) (N : Nat) :
    Except Err (List Nat) :=
  let c1 := P.deriveChild key 1397249350
  (fySync P (.arrs sbm) c1 N).bind fun s =>
    let c2 := P.deriveChild c1 (checksum_index P s)
    fySync P (.bytes s) c2 N

/-- `shuffleAsync` from src/hbedf.ts: as `shuffleSync` with `fyAsync`. -/
def shuffleAsync (P : Prims) (sbm : List (List Nat)) (key : HDKey) (N : Nat) :
    Except Err (List Nat) :=
  let c1 := P.deriveChild key 1397249350
  (fyAsync P (.arrs sbm) c1 N).bind fun s =>
    let c2 := P.deriveChild c1 (checksum_index P s)
    fyAsync P (.bytes s) c2 N

/-- The `while (osm.length < length)` loop of `expand`, written with fuel;
each iteration appends one HMAC block, so `length` units of fuel always
suffice (every block is nonempty by `Prims.hLen_ge4`), making this
extensionally the source loop. The appended counter byte is the single-byte
`Uint8Array` write `data.set([i], ...)`, which wraps modulo 256. -/
def expandLoop (P : Prims) (pbm : List Nat) (key : HDKey) (length : Nat) :
    Nat → Nat → List Nat → List Nat → List Nat
  | 0, _, _, osm => osm
  | fuel + 1, i, t, osm =>
    if osm.length < length then
      let i2 := i + 1
      let child := P.deriveChild key i2
      let prk := digest P child.key pbm
      let t2 := digest P prk (t ++ pbm ++ [i2 % 256])
      expandLoop P pbm key length fuel i2 t2 (osm ++ t2)
    else osm

/-- `expand` from src/hbedf.ts: HKDF-style feedback expansion; fails first
when the requested length exceeds 255 times the digest length (the digest
length is probed with an HMAC over 32 zero bytes keyed with 32 zero bytes). -/
def expand (P : Prims) (pbm : List Nat) (key : HDKey) (length : Nat) :
    Except Err (List Nat) :=
  let d := digest P (List.replicate 32 0) (List.replicate 32 0)
  if length > 255 * d.length then .error .outLenExceeded
  else .ok ((expandLoop P pbm key length length 0 [] []).take length)

/-! ### src/mod.ts (entry point) -/

/-- HBEDF derivation options. `c` and `mem` are JS number-typed values
(validated at runtime); `schema` and `dsLen` are optional. -/
structure Opts where
  path : String
  schema : Option String
  c : JsVal
  mem : JsVal
  dsLen : Option Nat
deriving DecidableEq

/-- The `if (opts.schema)` truthiness check: the default schema is used when
`schema` is undefined or the empty string. -/
def resolveSchema (P : Prims) (s : Option String) : String :=
  match s with
  | some v => if v = "" then P.defaultSchema else v
  | none => P.defaultSchema

/-- The `if (opts.dsLen)` truthiness check: 32 is used when `dsLen` is
undefined, and also when it is 0, since `0` is falsy. -/
def resolveDsLen (d : Option Nat) : Nat :=
  match d with
  | some v => if v = 0 then 32 else v
  | none => 32

/-- `hbedfSync` from src/mod.ts: Key, Extract, Shuffle, Expand in sequence. -/
def hbedfSync (P : Prims) (ibm : List (List Nat)) (secret : List Nat) (opts : Opts) :
    Except Err (List Nat) :=
  let schema := resolveSchema P opts.schema
  let hdKey := key P secret schema opts.path
  (extract P ibm hdKey opts.c opts.mem).bind fun sn =>
    (shuffleSync P sn.1 hdKey sn.2).bind fun pbm =>
      expand P pbm hdKey (resolveDsLen opts.dsLen)

/-- `hbedf` from src/mod.ts: the suspending path, identical except that the
shuffle awaits `scryptAsync`. -/
def hbedf (P : Prims) (ibm : List (List Nat)) (secret : List Nat) (opts : Opts) :
    Except Err (List Nat) :=
  let schema := resolveSchema P opts.schema
  let hdKey := key P secret schema opts.path
  (extract P ibm hdKey opts.c opts.mem).bind fun sn =>
    (shuffleAsync P sn.1 hdKey sn.2).bind fun pbm =>
      expand P pbm hdKey (resolveDsLen opts.dsLen)

/-! ### Specification-side definitions

These restate algorithm descriptions in the words of the specification and of
the claims, independently of the operational embedding above, for refinement
statements. -/

/-- Claim wording of the element strengthener: run exactly `c` iterations
where iteration `i` (0-indexed) MACs (big-endian `i` concatenated with the
current element) under the child key. -/
def claimStrengthenEl (P : Prims) (k : List Nat) (c : Nat) (e : List Nat) : List Nat :=
  (List.range c).foldl (fun acc i => P.hmac k (be32 i ++ acc)) e

/-- Claim wording of the index generator: HMAC keyed with the key stream,
updated with the message then with the big-endian 4-byte counter; first four
digest bytes as a big-endian unsigned 32-bit integer. -/
def claimRng (P : Prims) (dk m : List Nat) (c : Nat) : Nat :=
  beU32 ((P.hmac dk (m ++ be32 c)).take 4)

/-- Claim wording of one shuffle step at index `i`: `rem` is the flattened
bytes of units `[0..i]` inclusive, `num = rng(dk, rem, i)`,
`j = num mod (i+1)`, swap units `i` and `j`. -/
def claimShuffleStep (P : Prims) (dk : List Nat) (a : FYIn) (i : Nat) : FYIn :=
  a.swapU i (claimRng P dk ((a.takeU (i + 1)).flat) i % (i + 1))

/-- Claim wording of the shuffle engine given the key stream `dk`: iterate
`i` from `l-1` down to `1`, then return the flattened shuffled sequence. -/
def claimShuffle (P : Prims) (dk : List Nat) (a : FYIn) : List Nat :=
  (((List.range a.len).reverse.dropLast).foldl (claimShuffleStep P dk) a).flat

/-! ### Instrumented embedding: buffer store and event trace

For the frame claim (caller buffers are never mutated) and the ordering
claims (which keyed computations happen before an error), the pipeline is
embedded a second time at the level of buffer references.  A store holds the
byte values of allocated `Uint8Array` buffers; references are indices into
it.  Each phase additionally reports the ordered list of keyed computations
it performed.  The numeric work is shared with the pure embedding above. -/

/-- Keyed computations observable in the trace: master and node key
derivation (Key phase), one HMAC strengthening iteration, one memory-hard
key-stream derivation (scrypt), one expansion output block. -/
inductive Ev where
  | masterKey
  | nodeKey
  | strengthenIter
  | scryptCall
  | expandBlock
deriving DecidableEq

/-- The buffer store: position `r` holds the bytes of buffer `r`. -/
structure St where
  bufs : List (List Nat)
deriving DecidableEq

/-- Read the bytes of buffer `r`. -/
def St.read (st : St) (r : Nat) : List Nat := st.bufs.getD r []

/-- Allocate a fresh buffer holding `v`; returns the new store and the new
reference. -/
def St.alloc (st : St) (v : List Nat) : St × Nat :=
  (⟨st.bufs ++ [v]⟩, st.bufs.length)

/-- Overwrite buffer `r` in place with `v`. -/
def St.write (st : St) (r : Nat) (v : List Nat) : St := ⟨st.bufs.set r v⟩

/-- Key phase over the store: reads the secret buffer, copies it into a fresh
buffer extended with the `HBEDF` tag, then derives the master and node keys
(two keyed computations). HD keys are values owned by the invocation. -/
def keySt (P : Prims) (st : St) (secret : Nat) (schema path : String) :
    St × List Ev × HDKey :=
  let sv := st.read secret ++ [72, 66, 69, 68, 70]
  let st2 := (st.alloc sv).1
  (st2, [.masterKey, .nodeKey], P.deriveNode (P.deriveMaster sv) schema path)

/-- `strengthen_element` over the store. With zero (truncated) iterations the
code returns the input buffer itself; otherwise the result is a fresh digest
buffer (intermediate digests are unreachable and not retained). -/
def strengthen_elementSt (P : Prims) (cN : Nat) (k : List Nat) (st : St) (r : Nat) :
    St × List Ev × Nat :=
  if cN = 0 then (st, [], r)
  else
    let al := st.alloc (strengthen_go P k 0 cN (st.read r))
    (al.1, List.replicate cN .strengthenIter, al.2)

/-- The element loop of `strengthen` over the store: the elements are
processed in order, threading the store; output references are collected in
order. -/
def strengthenStGo (P : Prims) (k : List Nat) (cN : Nat) :
    List Nat → St → St × List Ev × List Nat
  | [], st => (st, [], [])
  | r :: rs, st =>
    let res := strengthen_elementSt P cN k st r
    let rest := strengthenStGo P k cN rs res.1
    (rest.1, res.2.1 ++ rest.2.1, res.2.2 :: rest.2.2)

/-- `strengthen` over the store: the output container is a fresh array, the
input container is only read. -/
def strengthenSt (P : Prims) (st : St) (ibm : List Nat) (key : HDKey) (cN : Nat) :
    St × List Ev × List Nat :=
  let hd := P.deriveChild key 1398035013
  strengthenStGo P hd.key cN ibm st

/-- Element-granularity `fySync`/`fyAsync` over the store, parameterized by
the memory-hard KDF in use. The loop swaps container slots only and performs
no buffer writes, so its net effect is computed over the read values with
the shared loop `fyGo`; the flattened result is a fresh output buffer. -/
def fyArrSt (P : Prims) (sc : List Nat → List Nat → Nat → List Nat) (st : St)
    (arr : List Nat) (key : HDKey) (N : Nat) : St × List Ev × Except Err Nat :=
  let l := arr.length
  if l > 4294967295 then (st, [], .error .seqLenExceeded)
  else
    let vals := arr.map st.read
    let salt := calc_salt P key.key (flatten_arrays vals)
    let dk := sc key.code salt N
    let al := st.alloc (fyGo P dk (l - 1) (.arrs vals)).flat
    (al.1, [.scryptCall], .ok al.2)

/-- Byte-granularity `fySync`/`fyAsync` over the store. The loop swaps bytes
of the argument buffer in place; its net effect is one write of the shared
loop result, after which the output is a fresh copy. -/
def fyBytesSt (P : Prims) (sc : List Nat → List Nat → Nat → List Nat) (st : St)
    (r : Nat) (key : HDKey) (N : Nat) : St × List Ev × Except Err Nat :=
  let b := st.read r
  if b.length > 4294967295 then (st, [], .error .seqLenExceeded)
  else
    let salt := calc_salt P key.key b
    let dk := sc key.code salt N
    let res := (fyGo P dk (b.length - 1) (.bytes b)).flat
    let al := (st.write r res).alloc res
    (al.1, [.scryptCall], .ok al.2)

/-- The two-pass shuffle over the store. -/
def shuffleSt (P : Prims) (sc : List Nat → List Nat → Nat → List Nat) (st : St)
    (sbm : List Nat) (key : HDKey) (N : Nat) : St × List Ev × Except Err Nat :=
  let c1 := P.deriveChild key 1397249350
  match fyArrSt P sc st sbm c1 N with
  | (st2, ev1, .error e) => (st2, ev1, .error e)
  | (st2, ev1, .ok s) =>
    let c2 := P.deriveChild c1 (checksum_index P (st2.read s))
    match fyBytesSt P sc st2 s c2 N with
    | (st3, ev2, res) => (st3, ev1 ++ ev2, res)

/-- The expand loop with its event trace: one `expandBlock` per iteration. -/
def expandLoopEv (P : Prims) (pbm : List Nat) (key : HDKey) (length : Nat) :
    Nat → Nat → List Nat → List Nat → List Nat × List Ev
  | 0, _, _, osm => (osm, [])
  | fuel + 1, i, t, osm =>
    if osm.length < length then
      let i2 := i + 1
      let prk := digest P (P.deriveChild key i2).key pbm
      let t2 := digest P prk (t ++ pbm ++ [i2 % 256])
      let rest := expandLoopEv P pbm key length fuel i2 t2 (osm ++ t2)
      (rest.1, .expandBlock :: rest.2)
    else (osm, [])

/-- `expand` over the store: the length guard fires before any block is
derived; on success the seed is a fresh buffer. -/
def expandSt (P : Prims) (st : St) (pbm : Nat) (key : HDKey) (length : Nat) :
    St × List Ev × Except Err Nat :=
  let d := digest P (List.replicate 32 0) (List.replicate 32 0)
  if length > 255 * d.length then (st, [], .error .outLenExceeded)
  else
    let r := expandLoopEv P (st.read pbm) key length length 0 [] []
    let al := st.alloc (r.1.take length)
    (al.1, r.2, .ok al.2)

/-- The full pipeline over the store, parameterized by the memory-hard KDF
(`scrypt` for the synchronous entry point, `scryptAsync` for the suspending
one): Key phase, `c` validation, strengthening, `mem` validation, two-pass
shuffle, expand, with events in program order. -/
def hbedfStCore (P : Prims) (sc : List Nat → List Nat → Nat → List Nat) (st : St)
    (ibm : List Nat) (secret : Nat) (opts : Opts) : St × List Ev × Except Err Nat :=
  let kres := keySt P st secret (resolveSchema P opts.schema) opts.path
  match validC opts.c with
  | .error e => (kres.1, kres.2.1, .error e)
  | .ok cq =>
    let sres := strengthenSt P kres.1 ibm kres.2.2 (qToUint32 cq)
    match validMem opts.mem with
    | .error e => (sres.1, kres.2.1 ++ sres.2.1, .error e)
    | .ok mq =>
      match shuffleSt P sc sres.1 sres.2.2 kres.2.2 (calcN mq) with
      | (st3, ev3, .error e) => (st3, kres.2.1 ++ sres.2.1 ++ ev3, .error e)
      | (st3, ev3, .ok pbm) =>
        match expandSt P st3 pbm kres.2.2 (resolveDsLen opts.dsLen) with
        | (st4, ev4, res) => (st4, kres.2.1 ++ sres.2.1 ++ ev3 ++ ev4, res)

/-- `hbedfSync` over the store. -/
def hbedfSyncSt (P : Prims) (st : St) (ibm : List Nat) (secret : Nat) (opts : Opts) :
    St × List Ev × Except Err Nat :=
  hbedfStCore P P.scrypt st ibm secret opts

/-- `hbedf` over the store. -/
def hbedfSt (P : Prims) (st : St) (ibm : List Nat) (secret : Nat) (opts : Opts) :
    St × List Ev × Except Err Nat :=
  hbedfStCore P P.scryptA st ibm secret opts

/-! ### Concrete fixture for witnesses and counterexamples

A small concrete instance of the external primitives.  The claims quantify
over the hash and the hierarchy, so any instance satisfying the interface
facts is admissible for exhibiting concrete behaviour. -/

/-- Concrete primitives: constant 4-byte digests and key streams, a child
derivation sensitive to the index. -/
def toyP : Prims where
  hLen := 4
  hmac := fun _ _ => [7, 7, 7, 7]
  hash := fun _ => [9, 9, 9, 9]
  scrypt := fun _ _ _ => [3, 3, 3, 3]
  scryptA := fun _ _ _ => [3, 3, 3, 3]
  deriveMaster := fun s => ⟨s.take 4, s.take 4⟩
  deriveNode := fun k _ _ => k
  deriveChild := fun k i => ⟨k.key ++ be32 i, k.code⟩
  defaultSchema := "d"
  hLen_ge4 := Nat.le_refl 4
  hmac_length := fun _ _ => rfl
  hash_len4 := fun _ => Nat.le_refl 4

/-- Concrete options with a valid iteration count and memory budget. -/
def optsOk : Opts := ⟨"m", none, .num 100, .num 1, some 5⟩

/-- Concrete options with `dsLen = 0`. -/
def optsDs0 : Opts := ⟨"m", none, .num 100, .num 1, some 0⟩

/-- Concrete options with `c = 50`. -/
def optsC50 : Opts := ⟨"m", none, .num 50, .num 1, some 5⟩

/-- Concrete options with a valid `c` and `mem = 0`. -/
def optsMem0 : Opts := ⟨"m", none, .num 100, .num 0, some 5⟩

/-- Concrete options requesting more than 255 times the digest length. -/
def optsBig : Opts := ⟨"m", none, .num 100, .num 1, some 1021⟩

/-- A concrete store: buffers 0 and 1 are the caller IBM elements, buffer 2
is the caller secret. -/
def st0 : St := ⟨[[1], [2], [5]]⟩

/-- A concrete HD key. -/
def k0 : HDKey := ⟨[], []⟩

/-! ## Theorems -/

/-! ### Generic helper lemmas -/

theorem qToUint32_natCast (c : Nat) : qToUint32 (c : ℚ) = c % 4294967296 := by
  unfold qToUint32 qTrunc toUint32
  rw [if_pos (by positivity), Int.floor_natCast]
  omega

theorem strengthen_go_eq_foldl (P : Prims) (k : List Nat) :
    ∀ (n i : Nat) (e : List Nat),
      strengthen_go P k i n e =
        (List.range' i n).foldl (fun acc j => P.hmac k (be32 j ++ acc)) e := by
  intro n
  induction n with
  | zero => intro i e; rfl
  | succ m ih =>
    intro i e
    rw [List.range'_succ]
    exact ih (i + 1) (P.hmac k (be32 i ++ e))

/-! ### C6: element strengthening -/

/-- C6 (amended): `strengthen` maps each element of the IBM, in order, to the
result of `c >>> 0` (that is, `c mod 2^32`) iterations of
`element ← HMAC(childKey, BE32(i) ‖ element)` with `i` counting from 0, where
`childKey` is the child of the node key at the fixed strengthening index
1398035013; for `c < 2^32` this is exactly `c` iterations as claimed.  Order
is preserved and each element depends only on its own input, both immediate
from the `map` form. -/
theorem C6_strengthen_iterations (P : Prims) (ibm : List (List Nat)) (k : HDKey)
    (c : Nat) :
    strengthen P ibm k (c : ℚ) =
      ibm.map (claimStrengthenEl P (P.deriveChild k 1398035013).key (c % 4294967296)) := by
  simp only [strengthen]
  refine List.map_congr_left fun e _ => ?_
  simp only [strengthen_element, claimStrengthenEl, qToUint32_natCast,
    strengthen_go_eq_foldl, List.range_eq_range']

/-- C6 counterexample: at the JS number `c = 2^32` (numeric, above 100) the
code performs `c >>> 0 = 0` iterations and returns the IBM unchanged, while
the claim as stated demands `2^32` iterations, which under the concrete
primitives would change the element. -/
theorem C6_counterexample :
    strengthen toyP [[1]] ⟨[], []⟩ ((4294967296 : Nat) : ℚ) ≠
      [[1]].map
        (claimStrengthenEl toyP (toyP.deriveChild ⟨[], []⟩ 1398035013).key 4294967296) := by
  have h1 : strengthen toyP [[1]] ⟨[], []⟩ ((4294967296 : Nat) : ℚ) = [[1]] := by
    simp only [strengthen, strengthen_element, qToUint32_natCast, List.map_cons,
      List.map_nil]
    rfl
  have h2 : claimStrengthenEl toyP (toyP.deriveChild ⟨[], []⟩ 1398035013).key
      4294967296 [1] = [7, 7, 7, 7] := by
    unfold claimStrengthenEl
    rw [show (4294967296 : Nat) = 4294967295 + 1 by norm_num, List.range_succ,
      List.foldl_append]
    rfl
  rw [h1, List.map_cons, List.map_nil, h2]
  decide

/-! ### C5: synchronous and asynchronous paths -/

/-- C5: given that the memory-hard KDF primitive computes the same function
on both its direct and suspending paths (the contract of the external
`scrypt` / `scryptAsync` pair, out of scope per the specification), the
suspending pipeline `hbedf` and the direct pipeline `hbedfSync` return
identical seeds on identical inputs, and `fyAsync` and `fySync` return
identical shuffle results on identical inputs. -/
theorem C5_sync_async_equal (P : Prims) (h : P.scryptA = P.scrypt) :
    (∀ ibm secret opts, hbedf P ibm secret opts = hbedfSync P ibm secret opts) ∧
    ∀ a k N, fyAsync P a k N = fySync P a k N := by
  have hfy : ∀ a k N, fyAsync P a k N = fySync P a k N := by
    intro a k N
    unfold fyAsync fySync
    rw [h]
  have hsh : ∀ s k N, shuffleAsync P s k N = shuffleSync P s k N := by
    intro s k N
    unfold shuffleAsync shuffleSync
    simp only [hfy]
  refine ⟨fun ibm secret opts => ?_, hfy⟩
  unfold hbedf hbedfSync
  simp only [hsh]

theorem C5_witness :
    hbedf toyP [[1], [2]] [5] optsOk = hbedfSync toyP [[1], [2]] [5] optsOk :=
  (C5_sync_async_equal toyP rfl).1 [[1], [2]] [5] optsOk

/-! ### C8: validation characterization -/

/-- C8: the validation in `extract` is an exact characterization:
InvalidIterationCount is raised exactly when `c` is non-numeric (including
NaN) or numerically below 100; InvalidMemoryBudget exactly when `c` is valid
and `mem` is non-numeric or below 1; and with numeric `c ≥ 100` and numeric
`mem ≥ 1` the phase succeeds, raising neither error. -/
theorem C8_validation_characterization (P : Prims) (ibm : List (List Nat)) (k : HDKey)
    (c mem : JsVal) :
    (extract P ibm k c mem = .error .invalidIterationCount ↔
      c = .nan ∨ c = .other ∨ ∃ q, c = .num q ∧ q < 100) ∧
    (extract P ibm k c mem = .error .invalidMemoryBudget ↔
      (∃ q, c = .num q ∧ 100 ≤ q) ∧
        (mem = .nan ∨ mem = .other ∨ ∃ q, mem = .num q ∧ q < 1)) ∧
    (((∃ q, c = .num q ∧ 100 ≤ q) ∧ ∃ q, mem = .num q ∧ 1 ≤ q) ↔
      ∃ r, extract P ibm k c mem = .ok r) := by
  cases c with
  | nan => simp [extract, validC, Except.bind]
  | other => simp [extract, validC, Except.bind]
  | num cq =>
    by_cases hc : cq < 100
    · simp [extract, validC, hc, Except.bind, not_le.mpr hc]
    · have hc2 : (100 : ℚ) ≤ cq := not_lt.mp hc
      cases mem with
      | nan => simp [extract, validC, validMem, hc, hc2, Except.bind, Except.map]
      | other => simp [extract, validC, validMem, hc, hc2, Except.bind, Except.map]
      | num mq =>
        by_cases hm : mq < 1
        · simp [extract, validC, validMem, hc, hc2, hm, not_le.mpr hm,
            Except.bind, Except.map]
        · simp [extract, validC, validMem, hc, hc2, hm, not_lt.mp hm,
            Except.bind, Except.map]

theorem C8_witness :
    extract toyP [[1]] ⟨[], []⟩ (.num 50) (.num 1) = .error .invalidIterationCount :=
  (C8_validation_characterization toyP [[1]] ⟨[], []⟩ (.num 50) (.num 1)).1.mpr
    (Or.inr (Or.inr ⟨50, rfl, by norm_num⟩))

/-! ### C2: output length contract -/

theorem expandLoop_length (P : Prims) (pbm : List Nat) (k : HDKey) (L : Nat) :
    ∀ (fuel i : Nat) (t osm : List Nat), L ≤ osm.length + fuel →
      L ≤ (expandLoop P pbm k L fuel i t osm).length := by
  intro fuel
  induction fuel with
  | zero =>
    intro i t osm h
    simpa using h
  | succ m ih =>
    intro i t osm h
    by_cases hlt : osm.length < L
    · have hstep :
          expandLoop P pbm k L (m + 1) i t osm =
          expandLoop P pbm k L m (i + 1)
            (digest P (digest P (P.deriveChild k (i + 1)).key pbm)
              (t ++ pbm ++ [(i + 1) % 256]))
            (osm ++ digest P (digest P (P.deriveChild k (i + 1)).key pbm)
              (t ++ pbm ++ [(i + 1) % 256])) := by
        simp only [expandLoop, if_pos hlt]
      rw [hstep]
      apply ih
      have hdl : (digest P (digest P (P.deriveChild k (i + 1)).key pbm)
          (t ++ pbm ++ [(i + 1) % 256])).length = P.hLen := P.hmac_length _ _
      have h4 := P.hLen_ge4
      simp only [List.length_append, hdl]
      omega
    · have hstep : expandLoop P pbm k L (m + 1) i t osm = osm := by
        simp only [expandLoop, if_neg hlt]
      rw [hstep]
      omega

theorem expand_ok_length (P : Prims) (pbm : List Nat) (k : HDKey) (L : Nat)
    (out : List Nat) (h : expand P pbm k L = .ok out) : out.length = L := by
  unfold expand at h
  by_cases hg :
      L > 255 * (digest P (List.replicate 32 0) (List.replicate 32 0)).length
  · rw [if_pos hg] at h
    exact absurd h (by simp)
  · rw [if_neg hg] at h
    have hlen := expandLoop_length P pbm k L L 0 [] [] (by simp)
    have hout : (expandLoop P pbm k L L 0 [] []).take L = out := by
      exact Except.ok.inj h
    rw [← hout, List.length_take]
    omega

theorem hbedfSync_ok_expand {P : Prims} {ibm : List (List Nat)} {secret : List Nat}
    {opts : Opts} {out : List Nat} (h : hbedfSync P ibm secret opts = .ok out) :
    ∃ pbm, expand P pbm (key P secret (resolveSchema P opts.schema) opts.path)
      (resolveDsLen opts.dsLen) = .ok out := by
  simp only [hbedfSync] at h
  cases hex : extract P ibm (key P secret (resolveSchema P opts.schema) opts.path)
      opts.c opts.mem with
  | error e => rw [hex] at h; exact absurd h (by simp [Except.bind])
  | ok sn =>
    rw [hex] at h
    simp only [Except.bind] at h
    cases hsh : shuffleSync P sn.1
        (key P secret (resolveSchema P opts.schema) opts.path) sn.2 with
    | error e => rw [hsh] at h; exact absurd h (by simp)
    | ok pbm =>
      rw [hsh] at h
      exact ⟨pbm, h⟩

theorem hbedf_ok_expand {P : Prims} {ibm : List (List Nat)} {secret : List Nat}
    {opts : Opts} {out : List Nat} (h : hbedf P ibm secret opts = .ok out) :
    ∃ pbm, expand P pbm (key P secret (resolveSchema P opts.schema) opts.path)
      (resolveDsLen opts.dsLen) = .ok out := by
  simp only [hbedf] at h
  cases hex : extract P ibm (key P secret (resolveSchema P opts.schema) opts.path)
      opts.c opts.mem with
  | error e => rw [hex] at h; exact absurd h (by simp [Except.bind])
  | ok sn =>
    rw [hex] at h
    simp only [Except.bind] at h
    cases hsh : shuffleAsync P sn.1
        (key P secret (resolveSchema P opts.schema) opts.path) sn.2 with
    | error e => rw [hsh] at h; exact absurd h (by simp)
    | ok pbm =>
      rw [hsh] at h
      exact ⟨pbm, h⟩

/-- C2 (amended): the byte length of every successfully derived seed equals
`opts.dsLen` whenever `dsLen` is provided and nonzero, and equals 32 when
`dsLen` is absent or 0 — the code tests `if (opts.dsLen)`, so the value 0 is
falsy and treated like an absent field. -/
theorem C2_output_length (P : Prims) (ibm : List (List Nat)) (secret : List Nat)
    (opts : Opts) (out : List Nat)
    (h : hbedfSync P ibm secret opts = .ok out ∨ hbedf P ibm secret opts = .ok out) :
    out.length = match opts.dsLen with
      | some v => if v = 0 then 32 else v
      | none => 32 := by
  have hres : out.length = resolveDsLen opts.dsLen := by
    rcases h with h | h
    · obtain ⟨pbm, he⟩ := hbedfSync_ok_expand h
      exact expand_ok_length _ _ _ _ _ he
    · obtain ⟨pbm, he⟩ := hbedf_ok_expand h
      exact expand_ok_length _ _ _ _ _ he
  rw [hres]
  rfl

theorem C2_witness :
    (List.replicate 5 7 : List Nat).length =
      match optsOk.dsLen with
      | some v => if v = 0 then 32 else v
      | none => 32 :=
  C2_output_length toyP [[1], [2]] [5] optsOk (List.replicate 5 7)
    (Or.inl (by decide))

/-- C2 counterexample: a successful call with `dsLen = 0` provided returns a
32-byte seed, not a 0-byte seed: `0` is falsy in the `if (opts.dsLen)`
default resolution. -/
theorem C2_counterexample :
    hbedfSync toyP [[1], [2]] [5] optsDs0 = .ok (List.replicate 32 7) ∧
    optsDs0.dsLen = some 0 ∧ (List.replicate 32 7 : List Nat).length ≠ 0 := by
  refine ⟨by decide, rfl, by decide⟩

/-! ### C7: shuffle loop structure -/

theorem rng_eq_claimRng (P : Prims) (m dk : List Nat) (i : Nat)
    (h : i < 4294967296) : rng P m dk i = claimRng P dk m i := by
  simp only [rng, claimRng, Nat.mod_eq_of_lt h]

theorem range_reverse_dropLast (l : Nat) :
    (List.range l).reverse.dropLast = (List.range' 1 (l - 1)).reverse := by
  cases l with
  | zero => rfl
  | succ m =>
    rw [List.range_eq_range', List.range'_succ, List.reverse_cons,
      List.dropLast_concat]
    simp

theorem fyGo_eq_foldl (P : Prims) (dk : List Nat) :
    ∀ (n : Nat) (a : FYIn), n ≤ 4294967294 →
      fyGo P dk n a = (List.range' 1 n).reverse.foldl (claimShuffleStep P dk) a := by
  intro n
  induction n with
  | zero => intro a _; rfl
  | succ m ih =>
    intro a h
    have hi : m + 1 < 4294967296 := by omega
    have hstep : claimShuffleStep P dk a (1 + 1 * m) = fyStep P dk (m + 1) a := by
      have h1 : 1 + 1 * m = m + 1 := by ring
      rw [h1]
      simp only [claimShuffleStep, fyStep, rng_eq_claimRng P _ dk (m + 1) hi]
    rw [List.range'_concat, List.reverse_append]
    simp only [List.reverse_cons, List.reverse_nil, List.nil_append,
      List.singleton_append, List.foldl_cons]
    rw [hstep]
    exact ih (fyStep P dk (m + 1) a) (by omega)

/-- C7: for every sequence of at most `2^32 - 1` units, the shuffle engine
(both `fySync` and `fyAsync`) computes exactly the loop described by the
claim: `i` from `l-1` down to `1`, `rem` the flattened bytes of units
`[0..i]` of the current sequence, `num` the big-endian 32-bit read of the
first four bytes of `HMAC(dk, rem ‖ BE32(i))`, `j = num mod (i+1)`, swap of
units `i` and `j`; the flattened shuffled sequence is returned, where `dk`
is the memory-hard key stream derived from the chain code and the salt at
work factor `N`. -/
theorem C7_shuffle_engine (P : Prims) (a : FYIn) (k : HDKey) (N : Nat)
    (h : a.len ≤ 4294967295) :
    fySync P a k N =
      .ok (claimShuffle P (P.scrypt k.code (calc_salt P k.key a.flat) N) a) ∧
    fyAsync P a k N =
      .ok (claimShuffle P (P.scryptA k.code (calc_salt P k.key a.flat) N) a) := by
  constructor
  · simp only [fySync, claimShuffle]
    rw [if_neg (by omega), range_reverse_dropLast,
      fyGo_eq_foldl P _ (a.len - 1) a (by omega)]
  · simp only [fyAsync, claimShuffle]
    rw [if_neg (by omega), range_reverse_dropLast,
      fyGo_eq_foldl P _ (a.len - 1) a (by omega)]

theorem C7_witness :
    fySync toyP (.arrs [[1], [2]]) k0 512 =
      .ok (claimShuffle toyP
        (toyP.scrypt k0.code (calc_salt toyP k0.key (FYIn.arrs [[1], [2]]).flat) 512)
        (.arrs [[1], [2]])) :=
  (C7_shuffle_engine toyP (.arrs [[1], [2]]) k0 512 (by decide)).1

/-! ### C9: the shuffle output is a permutation of the input units -/

theorem getD_set_eq_of_getD {α : Type} [Inhabited α] (l : List α) (i j : Nat)
    (hj : j < l.length) :
    (l.set i (l.getD j default)).getD j default = l.getD j default := by
  by_cases hij : i = j
  · subst hij
    rw [List.getD_eq_getElem?_getD, List.getElem?_set_self (by simpa using hj),
      Option.getD_some]
  · rw [List.getD_eq_getElem?_getD, List.getElem?_set_ne hij,
      ← List.getD_eq_getElem?_getD]

theorem count_getD_le {α : Type} [DecidableEq α] [Inhabited α] (l : List α) (i : Nat)
    (h : i < l.length) (x : α) :
    (if l.getD i default = x then 1 else 0) ≤ l.count x := by
  by_cases hx : l.getD i default = x
  · rw [if_pos hx]
    refine List.one_le_count_iff.mpr ?_
    rw [← hx, List.getD_eq_getElem l default h]
    exact List.getElem_mem h
  · rw [if_neg hx]
    exact Nat.zero_le _

theorem count_set_getD {α : Type} [DecidableEq α] [Inhabited α] (l : List α) (i : Nat)
    (v x : α) (h : i < l.length) :
    (l.set i v).count x + (if l.getD i default = x then 1 else 0) =
      l.count x + (if v = x then 1 else 0) := by
  have hc := List.count_set v x l i (by simpa using h)
  have hle := count_getD_le l i h x
  have hgd : l.getD i default = l[i] := List.getD_eq_getElem l default h
  rw [hc, hgd]
  by_cases h1 : l[i] = x <;> by_cases h2 : v = x <;>
    simp only [h1, h2, beq_iff_eq, if_true, if_false, beq_self_eq_true] <;>
    · rw [hgd] at hle
      simp only [h1, if_true, if_false] at hle
      omega

theorem swapL_length {α : Type} [Inhabited α] (l : List α) (i j : Nat) :
    (swapL l i j).length = l.length := by
  simp [swapL]

theorem swapL_perm {α : Type} [Inhabited α] [DecidableEq α] (l : List α) (i j : Nat)
    (hi : i < l.length) (hj : j < l.length) : (swapL l i j).Perm l := by
  rw [List.perm_iff_count]
  intro x
  simp only [swapL]
  have h1 := count_set_getD l i (l.getD j default) x hi
  have h2 := count_set_getD (l.set i (l.getD j default)) j (l.getD i default) x
    (by simpa using hj)
  rw [getD_set_eq_of_getD l i j hj] at h2
  omega

theorem fyGo_arrs_perm (P : Prims) (dk : List Nat) :
    ∀ (n : Nat) (x : List (List Nat)), n < x.length →
      (fyGo P dk n (.arrs x)).units.Perm x ∧
        fyGo P dk n (.arrs x) = .arrs (fyGo P dk n (.arrs x)).units := by
  intro n
  induction n with
  | zero => intro x _; exact ⟨List.Perm.refl x, rfl⟩
  | succ m ih =>
    intro x hx
    have hstep : fyStep P dk (m + 1) (.arrs x) =
        .arrs (swapL x (m + 1)
          (rng P (FYIn.arrs (x.take (m + 2))).flat dk (m + 1) % (m + 2))) := rfl
    have hj : rng P (FYIn.arrs (x.take (m + 2))).flat dk (m + 1) % (m + 2) < x.length :=
      Nat.lt_of_lt_of_le (Nat.mod_lt _ (Nat.succ_pos _)) hx
    have hlen : (swapL x (m + 1)
        (rng P (FYIn.arrs (x.take (m + 2))).flat dk (m + 1) % (m + 2))).length =
        x.length := swapL_length _ _ _
    have hm : m < (swapL x (m + 1)
        (rng P (FYIn.arrs (x.take (m + 2))).flat dk (m + 1) % (m + 2))).length := by
      omega
    have hgo : fyGo P dk (m + 1) (.arrs x) = fyGo P dk m (fyStep P dk (m + 1) (.arrs x)) :=
      rfl
    rw [hgo, hstep]
    obtain ⟨hperm, hshape⟩ := ih _ hm
    refine ⟨hperm.trans (swapL_perm x (m + 1) _ hx hj), hshape⟩

theorem fyGo_bytes_perm (P : Prims) (dk : List Nat) :
    ∀ (n : Nat) (x : List Nat), n < x.length →
      (fyGo P dk n (.bytes x)).flat.Perm x ∧
        fyGo P dk n (.bytes x) = .bytes (fyGo P dk n (.bytes x)).flat := by
  intro n
  induction n with
  | zero => intro x _; exact ⟨List.Perm.refl x, rfl⟩
  | succ m ih =>
    intro x hx
    have hstep : fyStep P dk (m + 1) (.bytes x) =
        .bytes (swapL x (m + 1)
          (rng P (x.take (m + 2)) dk (m + 1) % (m + 2))) := rfl
    have hj : rng P (x.take (m + 2)) dk (m + 1) % (m + 2) < x.length :=
      Nat.lt_of_lt_of_le (Nat.mod_lt _ (Nat.succ_pos _)) hx
    have hlen : (swapL x (m + 1) (rng P (x.take (m + 2)) dk (m + 1) % (m + 2))).length =
        x.length := swapL_length _ _ _
    have hm : m < (swapL x (m + 1) (rng P (x.take (m + 2)) dk (m + 1) % (m + 2))).length := by
      omega
    have hgo : fyGo P dk (m + 1) (.bytes x) =
        fyGo P dk m (fyStep P dk (m + 1) (.bytes x)) := rfl
    rw [hgo, hstep]
    obtain ⟨hperm, hshape⟩ := ih _ hm
    refine ⟨hperm.trans (swapL_perm x (m + 1) _ hx hj), hshape⟩

theorem flatten_arrays_eq_flatten (l : List (List Nat)) :
    flatten_arrays l = l.flatten := by
  induction l with
  | nil => rfl
  | cons a as ih => simp [flatten_arrays, ih]

theorem flatten_length_of_perm {u a : List (List Nat)} (h : u.Perm a) :
    (flatten_arrays u).length = (flatten_arrays a).length := by
  rw [flatten_arrays_eq_flatten, flatten_arrays_eq_flatten,
    List.length_flatten, List.length_flatten]
  exact ((h.map List.length).sum_eq)

theorem fyGo_arrs_start (P : Prims) (dk : List Nat) (a : List (List Nat)) :
    (fyGo P dk (a.length - 1) (.arrs a)).units.Perm a ∧
      fyGo P dk (a.length - 1) (.arrs a) = .arrs (fyGo P dk (a.length - 1) (.arrs a)).units := by
  by_cases h0 : a.length = 0
  · rw [h0]
    exact ⟨List.Perm.refl a, rfl⟩
  · exact fyGo_arrs_perm P dk (a.length - 1) a (by omega)

theorem fyGo_bytes_start (P : Prims) (dk : List Nat) (b : List Nat) :
    (fyGo P dk (b.length - 1) (.bytes b)).flat.Perm b ∧
      fyGo P dk (b.length - 1) (.bytes b) = .bytes (fyGo P dk (b.length - 1) (.bytes b)).flat := by
  by_cases h0 : b.length = 0
  · rw [h0]
    exact ⟨List.Perm.refl b, rfl⟩
  · exact fyGo_bytes_perm P dk (b.length - 1) b (by omega)

/-- C9: for every input sequence of length at most `2^32 - 1`, at either
granularity and on both execution paths, the shuffle succeeds, its output has
exactly the total byte length of the flattened input, the multiset of
shuffle units is preserved (the output is the flattening of a permutation of
the units; at byte granularity the bytes themselves are permuted), and for
sequences of length 0 or 1 the output equals the flattened input. -/
theorem C9_shuffle_permutation (P : Prims) (k : HDKey) (N : Nat)
    (a : List (List Nat)) (b : List Nat)
    (ha : a.length ≤ 4294967295) (hb : b.length ≤ 4294967295) :
    (fySync P (.arrs a) k N = .ok (flatten_arrays (fyUnitsSync P a k N))) ∧
    (fyUnitsSync P a k N).Perm a ∧
    (flatten_arrays (fyUnitsSync P a k N)).length = (flatten_arrays a).length ∧
    (a.length ≤ 1 → fyUnitsSync P a k N = a) ∧
    (fySync P (.bytes b) k N = .ok (fyBytesResSync P b k N)) ∧
    (fyBytesResSync P b k N).Perm b ∧
    (fyBytesResSync P b k N).length = b.length ∧
    (b.length ≤ 1 → fyBytesResSync P b k N = b) ∧
    (fyAsync P (.arrs a) k N = .ok (flatten_arrays (fyUnitsAsync P a k N))) ∧
    (fyUnitsAsync P a k N).Perm a ∧
    (fyAsync P (.bytes b) k N = .ok (fyBytesResAsync P b k N)) ∧
    (fyBytesResAsync P b k N).Perm b := by
  have harrS := fyGo_arrs_start P
    (P.scrypt k.code (calc_salt P k.key (flatten_arrays a)) N) a
  have harrA := fyGo_arrs_start P
    (P.scryptA k.code (calc_salt P k.key (flatten_arrays a)) N) a
  have hbytS := fyGo_bytes_start P (P.scrypt k.code (calc_salt P k.key b) N) b
  have hbytA := fyGo_bytes_start P (P.scryptA k.code (calc_salt P k.key b) N) b
  have hshort : ∀ dk, a.length ≤ 1 →
      (fyGo P dk (a.length - 1) (.arrs a)).units = a := by
    intro dk hle
    have h1 : a.length - 1 = 0 := by omega
    rw [h1]
    rfl
  have hshortB : ∀ dk, b.length ≤ 1 →
      (fyGo P dk (b.length - 1) (.bytes b)).flat = b := by
    intro dk hle
    have h1 : b.length - 1 = 0 := by omega
    rw [h1]
    rfl
  refine ⟨?_, harrS.1, flatten_length_of_perm harrS.1, hshort _, ?_,
    hbytS.1, hbytS.1.length_eq, hshortB _, ?_, harrA.1, ?_, hbytA.1⟩
  · simp only [fySync, fyUnitsSync, FYIn.len, FYIn.flat]
    rw [if_neg (by omega), harrS.2]
    rfl
  · simp only [fySync, fyBytesResSync, FYIn.len]
    rw [if_neg (by omega), FYIn.flat]
  · simp only [fyAsync, fyUnitsAsync, FYIn.len, FYIn.flat]
    rw [if_neg (by omega), harrA.2]
    rfl
  · simp only [fyAsync, fyBytesResAsync, FYIn.len]
    rw [if_neg (by omega), FYIn.flat]

theorem C9_witness : (fyUnitsSync toyP [[1], [2]] k0 512).Perm [[1], [2]] :=
  (C9_shuffle_permutation toyP k0 512 [[1], [2]] [4, 5, 6] (by decide) (by decide)).2.1

/-! ### C4: the work-factor mapper -/

theorem toUint32_natCast_eq (a : Nat) (h : a < 4294967296) : toUint32 (a : Int) = a := by
  unfold toUint32
  omega

theorem toInt32_natCast_eq (a : Nat) (h : a < 2147483648) :
    toInt32 (a : Int) = (a : Int) := by
  unfold toInt32
  omega

theorem jsOr_natCast (a b : Nat) (ha : a < 2147483648) (hb : b < 2147483648) :
    jsOr (a : Int) (b : Int) = ((a ||| b : Nat) : Int) := by
  unfold jsOr
  rw [toUint32_natCast_eq a (by omega), toUint32_natCast_eq b (by omega)]
  have hor : a ||| b < 2147483648 := by
    have h31 := Nat.or_lt_two_pow (show a < 2 ^ 31 by omega) (show b < 2 ^ 31 by omega)
    omega
  exact toInt32_natCast_eq _ hor

theorem jsSar_natCast (a k : Nat) (h : a < 2147483648) :
    jsSar (a : Int) k = ((a >>> k : Nat) : Int) := by
  unfold jsSar
  rw [toInt32_natCast_eq a h, Nat.shiftRight_eq_div_pow, Int.natCast_div]
  push_cast
  rfl

theorem testBit_or_shiftRight (m k i : Nat) :
    (m ||| (m >>> k)).testBit i = (m.testBit i || m.testBit (k + i)) := by
  rw [Nat.testBit_lor, Nat.testBit_shiftRight]

theorem spread_base (n : Nat) :
    ∀ i, n.testBit i = true ↔ ∃ j, i ≤ j ∧ j < i + 1 ∧ n.testBit j = true := by
  intro i
  constructor
  · intro h
    exact ⟨i, Nat.le_refl i, by omega, h⟩
  · rintro ⟨j, h1, h2, h3⟩
    have hij : j = i := by omega
    rwa [hij] at h3

theorem spread_step (n m w : Nat)
    (h : ∀ i, m.testBit i = true ↔ ∃ j, i ≤ j ∧ j < i + w ∧ n.testBit j = true) :
    ∀ i, (m ||| (m >>> w)).testBit i = true ↔
      ∃ j, i ≤ j ∧ j < i + (w + w) ∧ n.testBit j = true := by
  intro i
  rw [testBit_or_shiftRight, Bool.or_eq_true, h i, h (w + i)]
  constructor
  · rintro (⟨j, h1, h2, h3⟩ | ⟨j, h1, h2, h3⟩) <;> exact ⟨j, by omega, by omega, h3⟩
  · rintro ⟨j, h1, h2, h3⟩
    by_cases hc : j < i + w
    · exact Or.inl ⟨j, h1, hc, h3⟩
    · exact Or.inr ⟨j, by omega, by omega, h3⟩

theorem testBit_log2_self (n : Nat) (h : n ≠ 0) : n.testBit n.log2 = true := by
  have h1 : 2 ^ n.log2 ≤ n := Nat.log2_self_le h
  have h2 : n < 2 ^ (n.log2 + 1) := Nat.lt_log2_self
  have h3 : n / 2 ^ n.log2 = 1 := by
    refine Nat.div_eq_of_lt_le (by omega) ?_
    rw [pow_succ] at h2
    omega
  rw [Nat.testBit_to_div_mod, h3]
  rfl

theorem lt_two_pow_of_high_bits_false (x w : Nat)
    (h : ∀ i, w ≤ i → x.testBit i = false) : x < 2 ^ w := by
  by_contra hc
  push_neg at hc
  have hx0 : x ≠ 0 := by
    have := Nat.pos_pow_of_pos w (show 0 < 2 by norm_num)
    omega
  have hwle : w ≤ x.log2 := by
    have hlt := Nat.lt_log2_self (n := x)
    have := (Nat.pow_lt_pow_iff_right (show 1 < 2 by norm_num)).mp
      (Nat.lt_of_le_of_lt hc hlt)
    omega
  have hbit := testBit_log2_self x hx0
  rw [h _ hwle] at hbit
  exact Bool.noConfusion hbit

theorem log2_mono {a b : Nat} (ha : a ≠ 0) (h : a ≤ b) : a.log2 ≤ b.log2 := by
  have h1 : 2 ^ a.log2 ≤ a := Nat.log2_self_le ha
  have h2 : b < 2 ^ (b.log2 + 1) := Nat.lt_log2_self
  have := (Nat.pow_lt_pow_iff_right (show 1 < 2 by norm_num)).mp
    (Nat.lt_of_le_of_lt (Nat.le_trans h1 h) h2)
  omega

/-- A value whose bits are characterized by the 32-wide window smear of a
nonzero 31-bit value is the all-ones mask up to and including its leading
bit. -/
theorem spread_full (n : Nat) (h0 : n ≠ 0) (h31 : n < 2147483648) (m : Nat)
    (hm : ∀ i, m.testBit i = true ↔ ∃ j, i ≤ j ∧ j < i + 32 ∧ n.testBit j = true) :
    m = 2 ^ (n.log2 + 1) - 1 := by
  have hlog : n.log2 < 31 := by
    have h1 : 2 ^ n.log2 ≤ n := Nat.log2_self_le h0
    by_contra hc
    push_neg at hc
    have : (2 : Nat) ^ 31 ≤ 2 ^ n.log2 := Nat.pow_le_pow_right (by norm_num) hc
    omega
  have hchar : ∀ i, m.testBit i = true ↔ i ≤ n.log2 := by
    intro i
    rw [hm i]
    constructor
    · rintro ⟨j, h1, h2, h3⟩
      have hj : 2 ^ j ≤ n := Nat.testBit_implies_ge h3
      have hjle : j ≤ n.log2 := by
        by_contra hc
        push_neg at hc
        have hlt := Nat.lt_log2_self (n := n)
        have : (2 : Nat) ^ (n.log2 + 1) ≤ 2 ^ j :=
          Nat.pow_le_pow_right (by norm_num) (by omega)
        omega
      omega
    · intro hi
      exact ⟨n.log2, hi, by omega, testBit_log2_self n h0⟩
  apply Nat.eq_of_testBit_eq
  intro i
  rw [Nat.testBit_two_pow_sub_one]
  by_cases hi : i ≤ n.log2
  · rw [(hchar i).mpr hi]
    exact (decide_eq_true (by omega)).symm
  · have hfalse : m.testBit i = false := by
      by_cases hb : m.testBit i = true
      · exact absurd ((hchar i).mp hb) hi
      · exact Bool.not_eq_true _ ▸ (Bool.eq_false_iff.mpr hb)
    rw [hfalse]
    have hni : ¬ i < n.log2 + 1 := by omega
    exact (decide_eq_false hni).symm

/-- Every intermediate cascade value stays below `2^31` when the smeared
value does. -/
theorem spread_lt (n m w : Nat) (h31 : n < 2147483648)
    (hm : ∀ i, m.testBit i = true ↔ ∃ j, i ≤ j ∧ j < i + w ∧ n.testBit j = true) :
    m < 2147483648 := by
  have h : ∀ i, 31 ≤ i → m.testBit i = false := by
    intro i hi
    by_cases hb : m.testBit i = true
    · obtain ⟨j, h1, h2, h3⟩ := (hm i).mp hb
      have hj : 2 ^ j ≤ n := Nat.testBit_implies_ge h3
      have : (2 : Nat) ^ 31 ≤ 2 ^ j := Nat.pow_le_pow_right (by norm_num) (by omega)
      omega
    · exact Bool.eq_false_iff.mpr hb
  have := lt_two_pow_of_high_bits_false m 31 h
  omega

theorem shiftRight_lt_bound (x k : Nat) (hx : x < 2147483648) :
    x >>> k < 2147483648 := by
  rw [Nat.shiftRight_eq_div_pow]
  exact Nat.lt_of_le_of_lt (Nat.div_le_self _ _) hx

/-- In the guarded range (raw value below `2^31`) `calcN` returns the power
of two at the leading-bit position of the truncated raw value. -/
theorem calcN_eq_pow (mem : ℚ) (h1 : 1 ≤ mem) (h2 : mem < 4194304) :
    calcN mem = 2 ^ (⌊512 * mem⌋.toNat.log2) := by
  have hraw : mem * 1024 * 1024 / (2 * 1024) = 512 * mem := by ring
  have h0le : (0 : ℚ) ≤ 512 * mem := by linarith
  have hfl_lb : (512 : ℤ) ≤ ⌊512 * mem⌋ := Int.le_floor.mpr (by push_cast; linarith)
  have hfl_ub : ⌊512 * mem⌋ < 2147483648 := Int.floor_lt.mpr (by push_cast; linarith)
  have hcast : ((⌊512 * mem⌋.toNat : Nat) : Int) = ⌊512 * mem⌋ :=
    Int.toNat_of_nonneg (by omega)
  set n : Nat := ⌊512 * mem⌋.toNat with hn
  have hnlb : 512 ≤ n := by omega
  have hnub : n < 2147483648 := by omega
  have hne : n ≠ 0 := by omega
  have c1 := spread_step n n 1 (spread_base n)
  have c2 := spread_step n _ 2 c1
  have c3 := spread_step n _ 4 c2
  have c4 := spread_step n _ 8 c3
  have c5 := spread_step n _ 16 c4
  have b1 := spread_lt n _ 2 hnub c1
  have b2 := spread_lt n _ 4 hnub c2
  have b3 := spread_lt n _ 8 hnub c3
  have b4 := spread_lt n _ 16 hnub c4
  simp only [calcN]
  rw [hraw]
  have hq : qTrunc (512 * mem) = ⌊512 * mem⌋ := by
    unfold qTrunc
    rw [if_pos h0le]
  rw [hq, ← hcast, toInt32_natCast_eq n hnub, toUint32_natCast_eq n (by omega)]
  have e1 : jsOr (n : Int) (jsSar (n : Int) 1) = ((n ||| n >>> 1 : Nat) : Int) := by
    rw [jsSar_natCast n 1 hnub]
    exact jsOr_natCast n (n >>> 1) hnub (shiftRight_lt_bound n 1 hnub)
  rw [e1]
  set m1 : Nat := n ||| n >>> 1 with hm1
  have e2 : jsOr (m1 : Int) (jsSar (m1 : Int) 2) = ((m1 ||| m1 >>> 2 : Nat) : Int) := by
    rw [jsSar_natCast m1 2 b1]
    exact jsOr_natCast m1 (m1 >>> 2) b1 (shiftRight_lt_bound m1 2 b1)
  rw [e2]
  set m2 : Nat := m1 ||| m1 >>> 2 with hm2
  have e3 : jsOr (m2 : Int) (jsSar (m2 : Int) 4) = ((m2 ||| m2 >>> 4 : Nat) : Int) := by
    rw [jsSar_natCast m2 4 b2]
    exact jsOr_natCast m2 (m2 >>> 4) b2 (shiftRight_lt_bound m2 4 b2)
  rw [e3]
  set m3 : Nat := m2 ||| m2 >>> 4 with hm3
  have e4 : jsOr (m3 : Int) (jsSar (m3 : Int) 8) = ((m3 ||| m3 >>> 8 : Nat) : Int) := by
    rw [jsSar_natCast m3 8 b3]
    exact jsOr_natCast m3 (m3 >>> 8) b3 (shiftRight_lt_bound m3 8 b3)
  rw [e4]
  set m4 : Nat := m3 ||| m3 >>> 8 with hm4
  have e5 : jsOr (m4 : Int) (jsSar (m4 : Int) 16) = ((m4 ||| m4 >>> 16 : Nat) : Int) := by
    rw [jsSar_natCast m4 16 b4]
    exact jsOr_natCast m4 (m4 >>> 16) b4 (shiftRight_lt_bound m4 16 b4)
  rw [e5]
  have hfull := spread_full n hne hnub _ c5
  rw [hfull]
  have hlog : n.log2 < 31 := by
    have hp : 2 ^ n.log2 ≤ n := Nat.log2_self_le hne
    by_contra hc
    push_neg at hc
    have : (2 : Nat) ^ 31 ≤ 2 ^ n.log2 := Nat.pow_le_pow_right (by norm_num) hc
    omega
  have h1le : (1 : Nat) ≤ 2 ^ (n.log2 + 1) := Nat.one_le_two_pow
  have hplus : ((2 ^ (n.log2 + 1) - 1 : Nat) : Int) + 1 = ((2 ^ (n.log2 + 1) : Nat) : Int) := by
    rw [Nat.cast_sub h1le]
    push_cast
    ring
  rw [hplus]
  unfold jsShrU
  have hpb : (2 : Nat) ^ (n.log2 + 1) < 4294967296 := by
    have : (2 : Nat) ^ (n.log2 + 1) ≤ 2 ^ 31 := Nat.pow_le_pow_right (by norm_num) (by omega)
    omega
  rw [toUint32_natCast_eq _ hpb]
  rw [Nat.shiftRight_eq_div_pow, pow_succ, pow_one, Nat.mul_div_cancel _ (by norm_num)]

/-- C4 (amended): for every memory budget `mem` with `1 ≤ mem < 4194304` MiB
(equivalently, raw value below `2^31`), `calcN mem` is a positive power of
two that does not exceed the raw value `mem * 1024 * 1024 / (2 * 1024)`, and
`calcN` is non-decreasing on this range.  Outside this range the int32
bit-or cascade overflows (see the counterexample) and the claim fails. -/
theorem C4_calcN_power_monotone (mem : ℚ) (h1 : 1 ≤ mem) (h2 : mem < 4194304) :
    (∃ k, calcN mem = 2 ^ k) ∧ 0 < calcN mem ∧
    (calcN mem : ℚ) ≤ mem * 1024 * 1024 / (2 * 1024) ∧
    ∀ mem₂ : ℚ, mem ≤ mem₂ → mem₂ < 4194304 → calcN mem ≤ calcN mem₂ := by
  have he := calcN_eq_pow mem h1 h2
  have hfl_lb : (512 : ℤ) ≤ ⌊512 * mem⌋ := Int.le_floor.mpr (by push_cast; linarith)
  have hne : ⌊512 * mem⌋.toNat ≠ 0 := by omega
  refine ⟨⟨_, he⟩, by rw [he]; positivity, ?_, ?_⟩
  · rw [he]
    have hn : 2 ^ (⌊512 * mem⌋.toNat.log2) ≤ ⌊512 * mem⌋.toNat :=
      Nat.log2_self_le hne
    have hc1 : ((2 ^ (⌊512 * mem⌋.toNat.log2) : Nat) : ℚ) ≤
        ((⌊512 * mem⌋.toNat : Nat) : ℚ) := Nat.cast_le.mpr hn
    have hc2 : ((⌊512 * mem⌋.toNat : Nat) : ℚ) ≤ 512 * mem := by
      have hfle : ((⌊512 * mem⌋ : ℤ) : ℚ) ≤ 512 * mem := Int.floor_le (512 * mem)
      have : ((⌊512 * mem⌋.toNat : Nat) : ℤ) = ⌊512 * mem⌋ :=
        Int.toNat_of_nonneg (by omega)
      push_cast at hfle ⊢
      rw [show ((⌊512 * mem⌋.toNat : Nat) : ℚ) = ((⌊512 * mem⌋ : ℤ) : ℚ) by
        exact_mod_cast congrArg (fun z : ℤ => (z : ℚ)) this]
      exact hfle
    have hr : mem * 1024 * 1024 / (2 * 1024) = 512 * mem := by ring
    rw [hr]
    exact le_trans hc1 hc2
  · intro mem₂ hle hub
    have he2 := calcN_eq_pow mem₂ (le_trans h1 hle) hub
    rw [he, he2]
    apply Nat.pow_le_pow_right (by norm_num)
    apply log2_mono hne
    have := Int.floor_le_floor (show (512 : ℚ) * mem ≤ 512 * mem₂ by linarith)
    omega

theorem C4_witness : 0 < calcN 1 :=
  (C4_calcN_power_monotone 1 (by norm_num) (by norm_num)).2.1

/-- C4 counterexample: at `mem = 4194304` MiB (4 TiB) the raw value is
exactly `2^31`; the `rawN | 0` coercion wraps to a negative int32, the
sign-extending shifts smear the sign bit, and the final step returns 0 —
neither a positive power of two nor above the value at `mem = 4194303`,
refuting both the power-of-two bound and monotonicity as universally
stated. -/
theorem C4_counterexample :
    (1 : ℚ) ≤ 4194303 ∧ (4194303 : ℚ) ≤ 4194304 ∧
    calcN 4194303 = 1073741824 ∧ calcN 4194304 = 0 := by
  refine ⟨by norm_num, by norm_num, ?_, ?_⟩
  · simp only [calcN]
    rw [show (4194303 : ℚ) * 1024 * 1024 / (2 * 1024) = ((2147483136 : ℤ) : ℚ) by
      norm_num]
    rw [show qTrunc ((2147483136 : ℤ) : ℚ) = (2147483136 : ℤ) by
      unfold qTrunc
      rw [if_pos (by norm_num), Int.floor_intCast]]
    decide
  · simp only [calcN]
    rw [show (4194304 : ℚ) * 1024 * 1024 / (2 * 1024) = ((2147483648 : ℤ) : ℚ) by
      norm_num]
    rw [show qTrunc ((2147483648 : ℤ) : ℚ) = (2147483648 : ℤ) by
      unfold qTrunc
      rw [if_pos (by norm_num), Int.floor_intCast]]
    decide

/-! ### Store lemmas for the instrumented embedding -/

theorem read_alloc_lt (st : St) (v : List Nat) (r : Nat) (h : r < st.bufs.length) :
    (st.alloc v).1.read r = st.read r := by
  simp only [St.alloc, St.read]
  exact List.getD_append _ _ _ _ h

theorem read_alloc_self (st : St) (v : List Nat) :
    (st.alloc v).1.read st.bufs.length = v := by
  simp only [St.alloc, St.read]
  rw [List.getD_eq_getElem?_getD, List.getElem?_append_right (Nat.le_refl _)]
  simp

theorem alloc_length (st : St) (v : List Nat) :
    (st.alloc v).1.bufs.length = st.bufs.length + 1 := by
  simp [St.alloc]

theorem read_write_ne (st : St) (r : Nat) (v : List Nat) (r' : Nat) (h : r' ≠ r) :
    (st.write r v).read r' = st.read r' := by
  simp only [St.write, St.read]
  rw [List.getD_eq_getElem?_getD, List.getElem?_set_ne (fun he => h he.symm),
    ← List.getD_eq_getElem?_getD]

theorem write_length (st : St) (r : Nat) (v : List Nat) :
    (st.write r v).bufs.length = st.bufs.length := by
  simp [St.write]

/-! ### Phase frame lemmas -/

theorem keySt_parts (P : Prims) (st : St) (secret : Nat) (schema path : String) :
    (keySt P st secret schema path).1 = (st.alloc (st.read secret ++ [72, 66, 69, 68, 70])).1 ∧
    (keySt P st secret schema path).2.1 = [Ev.masterKey, Ev.nodeKey] :=
  ⟨rfl, rfl⟩

theorem keySt_frame (P : Prims) (st : St) (secret : Nat) (schema path : String) :
    (∀ r, r < st.bufs.length → (keySt P st secret schema path).1.read r = st.read r) ∧
      st.bufs.length ≤ (keySt P st secret schema path).1.bufs.length := by
  constructor
  · intro r h
    exact read_alloc_lt st _ r h
  · rw [(keySt_parts P st secret schema path).1, alloc_length]
    omega

theorem strengthen_elementSt_frame (P : Prims) (cN : Nat) (k : List Nat) (st : St)
    (r : Nat) :
    (∀ q, q < st.bufs.length →
        (strengthen_elementSt P cN k st r).1.read q = st.read q) ∧
      st.bufs.length ≤ (strengthen_elementSt P cN k st r).1.bufs.length := by
  unfold strengthen_elementSt
  by_cases h : cN = 0
  · rw [if_pos h]
    exact ⟨fun q _ => rfl, Nat.le_refl _⟩
  · rw [if_neg h]
    refine ⟨fun q hq => read_alloc_lt st _ q hq, ?_⟩
    rw [alloc_length]
    omega

theorem strengthenStGo_frame (P : Prims) (k : List Nat) (cN : Nat) :
    ∀ (rs : List Nat) (st : St),
      (∀ q, q < st.bufs.length → (strengthenStGo P k cN rs st).1.read q = st.read q) ∧
        st.bufs.length ≤ (strengthenStGo P k cN rs st).1.bufs.length := by
  intro rs
  induction rs with
  | nil => exact fun st => ⟨fun q _ => rfl, Nat.le_refl _⟩
  | cons r rs ih =>
    intro st
    have he := strengthen_elementSt_frame P cN k st r
    have hr := ih (strengthen_elementSt P cN k st r).1
    constructor
    · intro q hq
      have h1 : q < (strengthen_elementSt P cN k st r).1.bufs.length := by
        have := he.2
        omega
      calc (strengthenStGo P k cN (r :: rs) st).1.read q
          = (strengthenStGo P k cN rs (strengthen_elementSt P cN k st r).1).1.read q := rfl
        _ = (strengthen_elementSt P cN k st r).1.read q := hr.1 q h1
        _ = st.read q := he.1 q hq
    · calc st.bufs.length ≤ (strengthen_elementSt P cN k st r).1.bufs.length := he.2
        _ ≤ (strengthenStGo P k cN rs (strengthen_elementSt P cN k st r).1).1.bufs.length :=
            hr.2
        _ = (strengthenStGo P k cN (r :: rs) st).1.bufs.length := rfl

theorem strengthenStGo_events (P : Prims) (k : List Nat) (cN : Nat) :
    ∀ (rs : List Nat) (st : St) (x : Ev),
      x ∈ (strengthenStGo P k cN rs st).2.1 → x = Ev.strengthenIter := by
  intro rs
  induction rs with
  | nil => intro st x hx; exact absurd hx (List.not_mem_nil x)
  | cons r rs ih =>
    intro st x hx
    have hsplit : (strengthenStGo P k cN (r :: rs) st).2.1 =
        (strengthen_elementSt P cN k st r).2.1 ++
          (strengthenStGo P k cN rs (strengthen_elementSt P cN k st r).1).2.1 := rfl
    rw [hsplit] at hx
    rcases List.mem_append.mp hx with h | h
    · unfold strengthen_elementSt at h
      by_cases hc : cN = 0
      · rw [if_pos hc] at h
        exact absurd h (List.not_mem_nil x)
      · rw [if_neg hc] at h
        exact List.eq_of_mem_replicate h
    · exact ih _ x h

theorem strengthen_go_length (P : Prims) (k : List Nat) :
    ∀ (fuel i : Nat) (e : List Nat), fuel ≠ 0 →
      (strengthen_go P k i fuel e).length = P.hLen := by
  intro fuel
  induction fuel with
  | zero => intro i e h; exact absurd rfl h
  | succ m ih =>
    intro i e _
    by_cases hm : m = 0
    · subst hm
      exact P.hmac_length _ _
    · exact ih (i + 1) (P.hmac k (be32 i ++ e)) hm

theorem strengthenStGo_lens (P : Prims) (k : List Nat) (cN : Nat) (hc : cN ≠ 0) :
    ∀ (rs : List Nat) (st : St),
      (strengthenStGo P k cN rs st).2.2.length = rs.length ∧
        ∀ q ∈ (strengthenStGo P k cN rs st).2.2,
          q < (strengthenStGo P k cN rs st).1.bufs.length ∧
            ((strengthenStGo P k cN rs st).1.read q).length = P.hLen := by
  intro rs
  induction rs with
  | nil =>
    intro st
    exact ⟨rfl, fun q hq => absurd hq (List.not_mem_nil q)⟩
  | cons r rs ih =>
    intro st
    have hel : strengthen_elementSt P cN k st r =
        ((st.alloc (strengthen_go P k 0 cN (st.read r))).1,
          List.replicate cN .strengthenIter, st.bufs.length) := by
      unfold strengthen_elementSt
      rw [if_neg hc]
      rfl
    have hrest := ih (strengthen_elementSt P cN k st r).1
    have hfr := strengthenStGo_frame P k cN rs (strengthen_elementSt P cN k st r).1
    constructor
    · have : (strengthenStGo P k cN (r :: rs) st).2.2 =
          (strengthen_elementSt P cN k st r).2.2 ::
            (strengthenStGo P k cN rs (strengthen_elementSt P cN k st r).1).2.2 := rfl
      rw [this]
      simp [hrest.1]
    · intro q hq
      have hsplit : (strengthenStGo P k cN (r :: rs) st).2.2 =
          (strengthen_elementSt P cN k st r).2.2 ::
            (strengthenStGo P k cN rs (strengthen_elementSt P cN k st r).1).2.2 := rfl
      have hgoeq : (strengthenStGo P k cN (r :: rs) st).1 =
          (strengthenStGo P k cN rs (strengthen_elementSt P cN k st r).1).1 := rfl
      rw [hsplit] at hq
      rcases List.mem_cons.mp hq with h | h
      · subst h
        rw [hgoeq]
        have hq1 : (strengthen_elementSt P cN k st r).2.2 <
            (strengthen_elementSt P cN k st r).1.bufs.length := by
          rw [hel]
          simp only [alloc_length]
          omega
        refine ⟨Nat.lt_of_lt_of_le hq1 hfr.2, ?_⟩
        rw [hfr.1 _ hq1]
        have : (strengthen_elementSt P cN k st r).1.read
            (strengthen_elementSt P cN k st r).2.2 =
            strengthen_go P k 0 cN (st.read r) := by
          rw [hel]
          exact read_alloc_self st _
        rw [this]
        exact strengthen_go_length P k cN 0 (st.read r) hc
      · rw [hgoeq]
        exact hrest.2 q h

/-! ### C1: validation versus keyed work ordering -/

/-- C1 (amended): on a validation failure the pipeline raises exactly the
validation error and performs no memory-hard key-stream derivation and no
expansion, so no shuffle or expand key material is produced; however, the
Key phase (master and node key derivation) always runs before validation,
and when `c` is valid but `mem` is not, the strengthening iterations have
already run before the error. -/
theorem C1_validation_order (P : Prims) (sc : List Nat → List Nat → Nat → List Nat)
    (st : St) (ibm : List Nat) (secret : Nat) (opts : Opts) (e : Err) :
    (validC opts.c = .error e →
      (hbedfStCore P sc st ibm secret opts).2.2 = .error e ∧
      (hbedfStCore P sc st ibm secret opts).2.1 = [Ev.masterKey, Ev.nodeKey]) ∧
    (∀ cq, validC opts.c = .ok cq → validMem opts.mem = .error e →
      (hbedfStCore P sc st ibm secret opts).2.2 = .error e ∧
      Ev.scryptCall ∉ (hbedfStCore P sc st ibm secret opts).2.1 ∧
      Ev.expandBlock ∉ (hbedfStCore P sc st ibm secret opts).2.1) := by
  constructor
  · intro hv
    unfold hbedfStCore
    rw [hv]
    exact ⟨rfl, rfl⟩
  · intro cq hv hm
    unfold hbedfStCore
    rw [hv, hm]
    refine ⟨rfl, ?_, ?_⟩ <;>
    · intro hmem
      simp only [keySt_parts] at hmem
      rcases List.mem_append.mp hmem with h | h
      · simp at h
      · have := strengthenStGo_events P
          (P.deriveChild (keySt P st secret (resolveSchema P opts.schema) opts.path).2.2
            1398035013).key (qToUint32 cq) ibm
          (keySt P st secret (resolveSchema P opts.schema) opts.path).1 _ h
        simp at this

theorem C1_witness :
    (hbedfStCore toyP toyP.scrypt st0 [0, 1] 2 optsMem0).2.2 =
        .error .invalidMemoryBudget ∧
      Ev.scryptCall ∉ (hbedfStCore toyP toyP.scrypt st0 [0, 1] 2 optsMem0).2.1 ∧
      Ev.expandBlock ∉ (hbedfStCore toyP toyP.scrypt st0 [0, 1] 2 optsMem0).2.1 :=
  (C1_validation_order toyP toyP.scrypt st0 [0, 1] 2 optsMem0
    .invalidMemoryBudget).2 100 (by decide) (by decide)

/-- C1 counterexample: with `c = 50` the call fails validation, but the trace
already contains the master and node key derivation of the Key phase, which
runs before `extract`; so keyed computation does happen before the
validation error, contrary to the claim. -/
theorem C1_counterexample :
    (hbedfSyncSt toyP st0 [0, 1] 2 optsC50).2.1 = [Ev.masterKey, Ev.nodeKey] ∧
    (hbedfSyncSt toyP st0 [0, 1] 2 optsC50).2.2 = .error .invalidIterationCount := by
  exact ⟨by decide, by decide⟩

/-! ### C10: the caller's buffers are never mutated -/

theorem fyArrSt_frame (P : Prims) (sc : List Nat → List Nat → Nat → List Nat)
    (st : St) (arr : List Nat) (key : HDKey) (N : Nat) :
    (∀ q, q < st.bufs.length → (fyArrSt P sc st arr key N).1.read q = st.read q) ∧
      st.bufs.length ≤ (fyArrSt P sc st arr key N).1.bufs.length ∧
      ∀ s, (fyArrSt P sc st arr key N).2.2 = .ok s → s = st.bufs.length := by
  simp only [fyArrSt]
  by_cases h : arr.length > 4294967295
  · rw [if_pos h]
    exact ⟨fun q _ => rfl, Nat.le_refl _, fun s hs => absurd hs (by simp)⟩
  · rw [if_neg h]
    refine ⟨fun q hq => read_alloc_lt st _ q hq, ?_, ?_⟩
    · rw [alloc_length]
      omega
    · intro s hs
      exact (Except.ok.inj hs).symm

theorem fyBytesSt_frame (P : Prims) (sc : List Nat → List Nat → Nat → List Nat)
    (st : St) (r : Nat) (key : HDKey) (N : Nat) :
    (∀ q, q < st.bufs.length → q ≠ r →
        (fyBytesSt P sc st r key N).1.read q = st.read q) ∧
      st.bufs.length ≤ (fyBytesSt P sc st r key N).1.bufs.length := by
  simp only [fyBytesSt]
  by_cases h : (st.read r).length > 4294967295
  · rw [if_pos h]
    exact ⟨fun q _ _ => rfl, Nat.le_refl _⟩
  · rw [if_neg h]
    constructor
    · intro q hq hqr
      rw [read_alloc_lt _ _ q (by rw [write_length]; exact hq), read_write_ne st r _ q hqr]
    · rw [alloc_length, write_length]
      omega

theorem shuffleSt_frame (P : Prims) (sc : List Nat → List Nat → Nat → List Nat)
    (st : St) (sbm : List Nat) (key : HDKey) (N : Nat) :
    (∀ q, q < st.bufs.length → (shuffleSt P sc st sbm key N).1.read q = st.read q) ∧
      st.bufs.length ≤ (shuffleSt P sc st sbm key N).1.bufs.length := by
  simp only [shuffleSt]
  have hA := fyArrSt_frame P sc st sbm (P.deriveChild key 1397249350) N
  rcases hfy : fyArrSt P sc st sbm (P.deriveChild key 1397249350) N with ⟨st2, ev1, res⟩
  rw [hfy] at hA
  cases res with
  | error e =>
    exact ⟨fun q hq => hA.1 q hq, hA.2.1⟩
  | ok s =>
    have hs : s = st.bufs.length := hA.2.2 s rfl
    have hB := fyBytesSt_frame P sc st2
      s (P.deriveChild (P.deriveChild key 1397249350) (checksum_index P (st2.read s))) N
    rcases hby : fyBytesSt P sc st2
        s (P.deriveChild (P.deriveChild key 1397249350) (checksum_index P (st2.read s))) N
      with ⟨st3, ev2, res2⟩
    constructor
    · intro q hq
      have hq2 : q < st2.bufs.length := Nat.lt_of_lt_of_le hq hA.2.1
      have hqs : q ≠ s := by omega
      exact (hB.1 q hq2 hqs).trans (hA.1 q hq)
    · exact Nat.le_trans hA.2.1 hB.2

theorem expandSt_frame (P : Prims) (st : St) (pbm : Nat) (key : HDKey) (L : Nat) :
    (∀ q, q < st.bufs.length → (expandSt P st pbm key L).1.read q = st.read q) ∧
      st.bufs.length ≤ (expandSt P st pbm key L).1.bufs.length := by
  simp only [expandSt]
  by_cases h : L > 255 * (digest P (List.replicate 32 0) (List.replicate 32 0)).length
  · rw [if_pos h]
    exact ⟨fun q _ => rfl, Nat.le_refl _⟩
  · rw [if_neg h]
    refine ⟨fun q hq => read_alloc_lt st _ q hq, ?_⟩
    rw [alloc_length]
    omega

theorem hbedfStCore_frame (P : Prims) (sc : List Nat → List Nat → Nat → List Nat)
    (st : St) (ibm : List Nat) (secret : Nat) (opts : Opts) (r : Nat)
    (h : r < st.bufs.length) :
    (hbedfStCore P sc st ibm secret opts).1.read r = st.read r := by
  have hK := keySt_frame P st secret (resolveSchema P opts.schema) opts.path
  cases hv : validC opts.c with
  | error e =>
    simp only [hbedfStCore, hv]
    exact hK.1 r h
  | ok cq =>
    have hS := strengthenStGo_frame P
      (P.deriveChild (keySt P st secret (resolveSchema P opts.schema) opts.path).2.2
        1398035013).key (qToUint32 cq) ibm
      (keySt P st secret (resolveSchema P opts.schema) opts.path).1
    have hr1 : r < (keySt P st secret (resolveSchema P opts.schema) opts.path).1.bufs.length :=
      Nat.lt_of_lt_of_le h hK.2
    have hreadS : (strengthenSt P
        (keySt P st secret (resolveSchema P opts.schema) opts.path).1 ibm
        (keySt P st secret (resolveSchema P opts.schema) opts.path).2.2
        (qToUint32 cq)).1.read r = st.read r := by
      unfold strengthenSt
      rw [hS.1 r hr1, hK.1 r h]
    have hr2 : r < (strengthenSt P
        (keySt P st secret (resolveSchema P opts.schema) opts.path).1 ibm
        (keySt P st secret (resolveSchema P opts.schema) opts.path).2.2
        (qToUint32 cq)).1.bufs.length := by
      unfold strengthenSt
      exact Nat.lt_of_lt_of_le hr1 hS.2
    cases hm : validMem opts.mem with
    | error e =>
      simp only [hbedfStCore, hv, hm]
      exact hreadS
    | ok mq =>
      have hSh := shuffleSt_frame P sc
        (strengthenSt P (keySt P st secret (resolveSchema P opts.schema) opts.path).1 ibm
          (keySt P st secret (resolveSchema P opts.schema) opts.path).2.2 (qToUint32 cq)).1
        (strengthenSt P (keySt P st secret (resolveSchema P opts.schema) opts.path).1 ibm
          (keySt P st secret (resolveSchema P opts.schema) opts.path).2.2 (qToUint32 cq)).2.2
        (keySt P st secret (resolveSchema P opts.schema) opts.path).2.2 (calcN mq)
      rcases hsh : shuffleSt P sc
          (strengthenSt P (keySt P st secret (resolveSchema P opts.schema) opts.path).1 ibm
            (keySt P st secret (resolveSchema P opts.schema) opts.path).2.2 (qToUint32 cq)).1
          (strengthenSt P (keySt P st secret (resolveSchema P opts.schema) opts.path).1 ibm
            (keySt P st secret (resolveSchema P opts.schema) opts.path).2.2 (qToUint32 cq)).2.2
          (keySt P st secret (resolveSchema P opts.schema) opts.path).2.2 (calcN mq)
        with ⟨st3, ev3, res3⟩
      rw [hsh] at hSh
      cases res3 with
      | error e =>
        simp only [hbedfStCore, hv, hm, hsh]
        exact (hSh.1 r hr2).trans hreadS
      | ok pbm =>
        have hE := expandSt_frame P st3 pbm
          (keySt P st secret (resolveSchema P opts.schema) opts.path).2.2
          (resolveDsLen opts.dsLen)
        rcases hex : expandSt P st3 pbm
            (keySt P st secret (resolveSchema P opts.schema) opts.path).2.2
            (resolveDsLen opts.dsLen) with ⟨st4, ev4, res4⟩
        rw [hex] at hE
        have hr3 : r < st3.bufs.length := Nat.lt_of_lt_of_le hr2 hSh.2
        simp only [hbedfStCore, hv, hm, hsh, hex]
        exact (hE.1 r hr3).trans ((hSh.1 r hr2).trans hreadS)

/-- C10: no call to the pipeline mutates any buffer that existed before the
call: every caller-owned IBM element and the secret hold the same bytes
afterwards.  Strengthening copies elements into fresh digest buffers, the
Key phase copies the secret into a new buffer, the element-granularity
shuffle swaps container slots only, and the byte-granularity in-place
shuffle writes only the internally allocated first-pass output. -/
theorem C10_no_caller_mutation (P : Prims) (st : St) (ibm : List Nat) (secret : Nat)
    (opts : Opts) (r : Nat) (h : r < st.bufs.length) :
    (hbedfSyncSt P st ibm secret opts).1.read r = st.read r ∧
    (hbedfSt P st ibm secret opts).1.read r = st.read r :=
  ⟨hbedfStCore_frame P P.scrypt st ibm secret opts r h,
   hbedfStCore_frame P P.scryptA st ibm secret opts r h⟩

theorem C10_witness :
    (hbedfSyncSt toyP st0 [0, 1] 2 optsOk).1.read 0 = st0.read 0 ∧
    (hbedfSt toyP st0 [0, 1] 2 optsOk).1.read 0 = st0.read 0 :=
  C10_no_caller_mutation toyP st0 [0, 1] 2 optsOk 0 (by decide)

/-! ### C3: the output-length guard fires in the Expand phase -/

theorem qToUint32_bounds (cq : ℚ) (h1 : 100 ≤ cq) (h2 : cq < 4294967296) :
    100 ≤ qToUint32 cq ∧ qToUint32 cq < 4294967296 := by
  have h0 : (0 : ℚ) ≤ cq := by linarith
  have hfl : (100 : ℤ) ≤ ⌊cq⌋ := Int.le_floor.mpr (by push_cast; linarith)
  have hfu : ⌊cq⌋ < 4294967296 := Int.floor_lt.mpr (by push_cast; linarith)
  unfold qToUint32 qTrunc toUint32
  rw [if_pos h0]
  omega

theorem flatten_length_uniform (L : Nat) :
    ∀ (vals : List (List Nat)), (∀ v ∈ vals, v.length = L) →
      (flatten_arrays vals).length = vals.length * L := by
  intro vals
  induction vals with
  | nil =>
    intro _
    simp [flatten_arrays]
  | cons v vs ih =>
    intro h
    simp only [flatten_arrays, List.length_append, List.length_cons]
    rw [ih (fun w hw => h w (List.mem_cons_of_mem v hw)), h v (List.mem_cons_self v vs)]
    ring

theorem fyArrSt_success (P : Prims) (sc : List Nat → List Nat → Nat → List Nat)
    (st : St) (arr : List Nat) (key : HDKey) (N : Nat)
    (hlen : arr.length ≤ 4294967295)
    (hvals : ∀ q ∈ arr, (st.read q).length = P.hLen) :
    (fyArrSt P sc st arr key N).2.1 = [Ev.scryptCall] ∧
    (fyArrSt P sc st arr key N).2.2 = .ok st.bufs.length ∧
    ((fyArrSt P sc st arr key N).1.read st.bufs.length).length = arr.length * P.hLen := by
  simp only [fyArrSt]
  rw [if_neg (by omega)]
  refine ⟨rfl, rfl, ?_⟩
  rw [read_alloc_self]
  have hmap : ∀ v ∈ arr.map st.read, v.length = P.hLen := by
    intro v hv
    obtain ⟨q, hq, rfl⟩ := List.mem_map.mp hv
    exact hvals q hq
  have hlm : (arr.map st.read).length = arr.length := List.length_map arr st.read
  have hstart := fyGo_arrs_start P
    (sc key.code (calc_salt P key.key (flatten_arrays (arr.map st.read))) N)
    (arr.map st.read)
  rw [hlm] at hstart
  rw [hstart.2]
  calc (FYIn.arrs (fyGo P
        (sc key.code (calc_salt P key.key (flatten_arrays (arr.map st.read))) N)
        (arr.length - 1) (.arrs (arr.map st.read))).units).flat.length
      = (flatten_arrays (fyGo P
          (sc key.code (calc_salt P key.key (flatten_arrays (arr.map st.read))) N)
          (arr.length - 1) (.arrs (arr.map st.read))).units).length := rfl
    _ = (flatten_arrays (arr.map st.read)).length := flatten_length_of_perm hstart.1
    _ = (arr.map st.read).length * P.hLen :=
        flatten_length_uniform P.hLen (arr.map st.read) hmap
    _ = arr.length * P.hLen := by rw [hlm]

theorem fyBytesSt_success (P : Prims) (sc : List Nat → List Nat → Nat → List Nat)
    (st : St) (r : Nat) (key : HDKey) (N : Nat)
    (h : (st.read r).length ≤ 4294967295) :
    (fyBytesSt P sc st r key N).2.1 = [Ev.scryptCall] ∧
    ∃ p, (fyBytesSt P sc st r key N).2.2 = .ok p := by
  simp only [fyBytesSt]
  rw [if_neg (by omega)]
  exact ⟨rfl, _, rfl⟩

theorem shuffleSt_success (P : Prims) (sc : List Nat → List Nat → Nat → List Nat)
    (st : St) (sbm : List Nat) (key : HDKey) (N : Nat)
    (hlen : sbm.length ≤ 4294967295)
    (hblen : sbm.length * P.hLen ≤ 4294967295)
    (hvals : ∀ q ∈ sbm, (st.read q).length = P.hLen) :
    (shuffleSt P sc st sbm key N).2.1 = [Ev.scryptCall, Ev.scryptCall] ∧
    ∃ p, (shuffleSt P sc st sbm key N).2.2 = .ok p := by
  simp only [shuffleSt]
  have hA := fyArrSt_success P sc st sbm (P.deriveChild key 1397249350) N hlen hvals
  rcases hfy : fyArrSt P sc st sbm (P.deriveChild key 1397249350) N with ⟨st2, ev1, res⟩
  rw [hfy] at hA
  obtain ⟨hev1, hres, hrd⟩ := hA
  have hev1' : ev1 = [Ev.scryptCall] := hev1
  have hres' : res = .ok st.bufs.length := hres
  subst hev1'
  subst hres'
  dsimp only
  have hrd' : (st2.read st.bufs.length).length = sbm.length * P.hLen := hrd
  have hB := fyBytesSt_success P sc st2 st.bufs.length
    (P.deriveChild (P.deriveChild key 1397249350)
      (checksum_index P (st2.read st.bufs.length))) N (by rw [hrd']; exact hblen)
  rcases hby : fyBytesSt P sc st2 st.bufs.length
      (P.deriveChild (P.deriveChild key 1397249350)
        (checksum_index P (st2.read st.bufs.length))) N with ⟨st3, ev2, res2⟩
  rw [hby] at hB
  obtain ⟨hev2, p, hp⟩ := hB
  have hev2' : ev2 = [Ev.scryptCall] := hev2
  have hp' : res2 = .ok p := hp
  subst hev2'
  subst hp'
  exact ⟨rfl, p, rfl⟩

theorem expandSt_guard (P : Prims) (st : St) (pbm : Nat) (key : HDKey) (L : Nat)
    (h : 255 * P.hLen < L) :
    expandSt P st pbm key L = (st, [], .error .outLenExceeded) := by
  have hd : (digest P (List.replicate 32 0) (List.replicate 32 0)).length = P.hLen :=
    P.hmac_length _ _
  simp only [expandSt]
  rw [if_pos (by rw [hd]; omega)]

/-- C3 (amended): on a call whose other options are valid (numeric
`100 ≤ c < 2^32`, numeric `mem ≥ 1`, sequence lengths within the uint32
bound) and whose requested output length exceeds 255 times the digest
length, the pipeline raises OutputLengthExceeded (a RangeError); the error
fires inside the Expand phase before any output block is derived, but only
after the keyed work of the earlier phases — in particular the memory-hard
key-stream derivations of the shuffle have already run. -/
theorem C3_output_length_guard (P : Prims) (sc : List Nat → List Nat → Nat → List Nat)
    (st : St) (ibm : List Nat) (secret : Nat) (opts : Opts) (cq mq : ℚ) (L : Nat)
    (hc : opts.c = .num cq) (hc1 : 100 ≤ cq) (hc2 : cq < 4294967296)
    (hm : opts.mem = .num mq) (hm1 : 1 ≤ mq)
    (hlen : ibm.length ≤ 4294967295) (hblen : ibm.length * P.hLen ≤ 4294967295)
    (hds : opts.dsLen = some L) (hL : 255 * P.hLen < L) :
    (hbedfStCore P sc st ibm secret opts).2.2 = .error .outLenExceeded ∧
    Ev.expandBlock ∉ (hbedfStCore P sc st ibm secret opts).2.1 ∧
    Ev.scryptCall ∈ (hbedfStCore P sc st ibm secret opts).2.1 := by
  have hv : validC opts.c = .ok cq := by
    rw [hc]
    simp [validC, not_lt.mpr hc1]
  have hvm : validMem opts.mem = .ok mq := by
    rw [hm]
    simp [validMem, not_lt.mpr hm1]
  have hcb := qToUint32_bounds cq hc1 hc2
  have hcne : qToUint32 cq ≠ 0 := by omega
  have hlens := strengthenStGo_lens P
    (P.deriveChild (keySt P st secret (resolveSchema P opts.schema) opts.path).2.2
      1398035013).key (qToUint32 cq) hcne ibm
    (keySt P st secret (resolveSchema P opts.schema) opts.path).1
  have hsbmlen : (strengthenSt P
      (keySt P st secret (resolveSchema P opts.schema) opts.path).1 ibm
      (keySt P st secret (resolveSchema P opts.schema) opts.path).2.2
      (qToUint32 cq)).2.2.length = ibm.length := hlens.1
  have hsbmvals : ∀ q ∈ (strengthenSt P
      (keySt P st secret (resolveSchema P opts.schema) opts.path).1 ibm
      (keySt P st secret (resolveSchema P opts.schema) opts.path).2.2
      (qToUint32 cq)).2.2,
      ((strengthenSt P
        (keySt P st secret (resolveSchema P opts.schema) opts.path).1 ibm
        (keySt P st secret (resolveSchema P opts.schema) opts.path).2.2
        (qToUint32 cq)).1.read q).length = P.hLen :=
    fun q hq => (hlens.2 q hq).2
  have hshs := shuffleSt_success P sc
    (strengthenSt P (keySt P st secret (resolveSchema P opts.schema) opts.path).1 ibm
      (keySt P st secret (resolveSchema P opts.schema) opts.path).2.2 (qToUint32 cq)).1
    (strengthenSt P (keySt P st secret (resolveSchema P opts.schema) opts.path).1 ibm
      (keySt P st secret (resolveSchema P opts.schema) opts.path).2.2 (qToUint32 cq)).2.2
    (keySt P st secret (resolveSchema P opts.schema) opts.path).2.2 (calcN mq)
    (by rw [hsbmlen]; exact hlen) (by rw [hsbmlen]; exact hblen) hsbmvals
  rcases hshr : shuffleSt P sc
      (strengthenSt P (keySt P st secret (resolveSchema P opts.schema) opts.path).1 ibm
        (keySt P st secret (resolveSchema P opts.schema) opts.path).2.2 (qToUint32 cq)).1
      (strengthenSt P (keySt P st secret (resolveSchema P opts.schema) opts.path).1 ibm
        (keySt P st secret (resolveSchema P opts.schema) opts.path).2.2 (qToUint32 cq)).2.2
      (keySt P st secret (resolveSchema P opts.schema) opts.path).2.2 (calcN mq)
    with ⟨st3, ev3, res3⟩
  rw [hshr] at hshs
  obtain ⟨hev3, p, hp⟩ := hshs
  have hev3' : ev3 = [Ev.scryptCall, Ev.scryptCall] := hev3
  have hp' : res3 = .ok p := hp
  subst hev3'
  subst hp'
  have hresolve : resolveDsLen opts.dsLen = L := by
    rw [hds]
    have h4 := P.hLen_ge4
    have h0 : L ≠ 0 := by omega
    simp [resolveDsLen, h0]
  have hexp := expandSt_guard P st3 p
    (keySt P st secret (resolveSchema P opts.schema) opts.path).2.2 L hL
  simp only [hbedfStCore, hv, hvm, hshr, hresolve, hexp]
  refine ⟨by trivial, ?_, ?_⟩
  · intro hmem
    rcases List.mem_append.mp hmem with h1 | h1
    · rcases List.mem_append.mp h1 with h2 | h2
      · rcases List.mem_append.mp h2 with h3 | h3
        · rw [(keySt_parts P st secret (resolveSchema P opts.schema) opts.path).2] at h3
          simp at h3
        · have := strengthenStGo_events P
            (P.deriveChild (keySt P st secret (resolveSchema P opts.schema) opts.path).2.2
              1398035013).key (qToUint32 cq) ibm
            (keySt P st secret (resolveSchema P opts.schema) opts.path).1 _ h3
          simp at this
      · simp at h2
    · simp at h1
  · exact List.mem_append.mpr (Or.inl (List.mem_append.mpr (Or.inr (by simp))))

theorem C3_witness :
    (hbedfStCore toyP toyP.scrypt st0 [0, 1] 2 optsBig).2.2 = .error .outLenExceeded ∧
    Ev.expandBlock ∉ (hbedfStCore toyP toyP.scrypt st0 [0, 1] 2 optsBig).2.1 ∧
    Ev.scryptCall ∈ (hbedfStCore toyP toyP.scrypt st0 [0, 1] 2 optsBig).2.1 :=
  C3_output_length_guard toyP toyP.scrypt st0 [0, 1] 2 optsBig 100 1 1021 rfl
    (by norm_num) (by norm_num) rfl (by norm_num) (by decide) (by decide) rfl
    (by decide)

/-- C3 counterexample: a concrete valid call with `dsLen` above the ceiling
does raise OutputLengthExceeded, but its trace already contains memory-hard
key-stream derivations (the whole Key, Extract, and Shuffle phases ran), so
the error is not raised before keyed work occurs in the invocation. -/
theorem C3_counterexample :
    (hbedfSyncSt toyP st0 [0, 1] 2 optsBig).2.2 = .error .outLenExceeded ∧
    Ev.scryptCall ∈ (hbedfSyncSt toyP st0 [0, 1] 2 optsBig).2.1 := by
  exact ⟨by decide, by decide⟩

/-! ### Adequacy: the instrumented embedding computes the pure pipeline

These lemmas tie the store-level embedding used for the frame and ordering
claims back to the pure embedding: the reference returned by each phase holds
exactly the value the pure phase computes on the read values. -/

theorem read_alloc_snd (st : St) (v : List Nat) :
    (st.alloc v).1.read (st.alloc v).2 = v :=
  read_alloc_self st v

theorem expandLoopEv_fst (P : Prims) (pbm : List Nat) (key : HDKey) (L : Nat) :
    ∀ (fuel i : Nat) (t osm : List Nat),
      (expandLoopEv P pbm key L fuel i t osm).1 = expandLoop P pbm key L fuel i t osm := by
  intro fuel
  induction fuel with
  | zero => intro i t osm; rfl
  | succ m ih =>
    intro i t osm
    by_cases h : osm.length < L
    · simp only [expandLoopEv, expandLoop, if_pos h]
      exact ih _ _ _
    · simp only [expandLoopEv, expandLoop, if_neg h]

theorem expandSt_models (P : Prims) (st : St) (pbm : Nat) (key : HDKey) (L : Nat) :
    (expandSt P st pbm key L).2.2.map (fun q => (expandSt P st pbm key L).1.read q) =
      expand P (st.read pbm) key L := by
  simp only [expandSt, expand]
  by_cases h : L > 255 * (digest P (List.replicate 32 0) (List.replicate 32 0)).length
  · rw [if_pos h, if_pos h]
    rfl
  · rw [if_neg h, if_neg h]
    simp only [Except.map]
    rw [read_alloc_snd, expandLoopEv_fst]

theorem fyArrSt_models (P : Prims) (st : St) (arr : List Nat) (key : HDKey) (N : Nat) :
    (fyArrSt P P.scrypt st arr key N).2.2.map
        (fun q => (fyArrSt P P.scrypt st arr key N).1.read q) =
      fySync P (.arrs (arr.map st.read)) key N := by
  simp only [fyArrSt, fySync, FYIn.len, FYIn.flat]
  by_cases h : arr.length > 4294967295
  · rw [if_pos h, if_pos (by rw [List.length_map]; exact h)]
    rfl
  · rw [if_neg h, if_neg (by rw [List.length_map]; exact h)]
    simp only [Except.map]
    rw [read_alloc_snd, List.length_map]

theorem fyBytesSt_models (P : Prims) (st : St) (r : Nat) (key : HDKey) (N : Nat) :
    (fyBytesSt P P.scrypt st r key N).2.2.map
        (fun q => (fyBytesSt P P.scrypt st r key N).1.read q) =
      fySync P (.bytes (st.read r)) key N := by
  simp only [fyBytesSt, fySync, FYIn.len, FYIn.flat]
  by_cases h : (st.read r).length > 4294967295
  · rw [if_pos h, if_pos h]
    rfl
  · rw [if_neg h, if_neg h]
    simp only [Except.map]
    rw [read_alloc_snd]

theorem shuffleSt_models (P : Prims) (st : St) (sbm : List Nat) (key : HDKey) (N : Nat) :
    (shuffleSt P P.scrypt st sbm key N).2.2.map
        (fun q => (shuffleSt P P.scrypt st sbm key N).1.read q) =
      shuffleSync P (sbm.map st.read) key N := by
  simp only [shuffleSt, shuffleSync]
  have hA := fyArrSt_models P st sbm (P.deriveChild key 1397249350) N
  rcases hfy : fyArrSt P P.scrypt st sbm (P.deriveChild key 1397249350) N
    with ⟨st2, ev1, res⟩
  rw [hfy] at hA
  cases res with
  | error e =>
    rw [← hA]
    rfl
  | ok s =>
    have hok : fySync P (.arrs (sbm.map st.read)) (P.deriveChild key 1397249350) N =
        .ok (st2.read s) := by
      rw [← hA]
      rfl
    rw [hok]
    simp only [Except.bind]
    have hB := fyBytesSt_models P st2 s
      (P.deriveChild (P.deriveChild key 1397249350) (checksum_index P (st2.read s))) N
    rcases hby : fyBytesSt P P.scrypt st2 s
        (P.deriveChild (P.deriveChild key 1397249350) (checksum_index P (st2.read s))) N
      with ⟨st3, ev2, res2⟩
    rw [hby] at hB
    exact hB

theorem strengthenStGo_models (P : Prims) (k : List Nat) (cN : Nat) :
    ∀ (rs : List Nat) (st : St), (∀ q ∈ rs, q < st.bufs.length) →
      (strengthenStGo P k cN rs st).2.2.map
          (fun q => (strengthenStGo P k cN rs st).1.read q) =
        rs.map (fun q => strengthen_go P k 0 cN (st.read q)) := by
  intro rs
  induction rs with
  | nil => intro st _; rfl
  | cons r rs ih =>
    intro st hv
    have hr : r < st.bufs.length := hv r (List.mem_cons_self r rs)
    have hef := strengthen_elementSt_frame P cN k st r
    have hgf := strengthenStGo_frame P k cN rs (strengthen_elementSt P cN k st r).1
    have hcons : (strengthenStGo P k cN (r :: rs) st).2.2 =
        (strengthen_elementSt P cN k st r).2.2 ::
          (strengthenStGo P k cN rs (strengthen_elementSt P cN k st r).1).2.2 := rfl
    have hsteq : (strengthenStGo P k cN (r :: rs) st).1 =
        (strengthenStGo P k cN rs (strengthen_elementSt P cN k st r).1).1 := rfl
    rw [hcons, List.map_cons, hsteq, List.map_cons, List.cons_eq_cons]
    refine ⟨?_, ?_⟩
    ·
      by_cases hc : cN = 0
      · have hel : strengthen_elementSt P cN k st r = (st, [], r) := by
          unfold strengthen_elementSt
          rw [if_pos hc]
        rw [hel]
        subst hc
        exact hgf.1 r hr
      · have hel : strengthen_elementSt P cN k st r =
            ((st.alloc (strengthen_go P k 0 cN (st.read r))).1,
              List.replicate cN .strengthenIter, st.bufs.length) := by
          unfold strengthen_elementSt
          rw [if_neg hc]
          rfl
        rw [hel]
        have hlt : st.bufs.length < (st.alloc (strengthen_go P k 0 cN (st.read r))).1.bufs.length := by
          rw [alloc_length]
          omega
        have := hgf.1 st.bufs.length (by rw [hel] at hgf ⊢; exact hlt)
        rw [hel] at this
        rw [this, read_alloc_self]
    ·
      have hreads : ∀ q ∈ rs, (strengthen_elementSt P cN k st r).1.read q = st.read q :=
        fun q hq => hef.1 q (hv q (List.mem_cons_of_mem r hq))
      have hvs : ∀ q ∈ rs, q < (strengthen_elementSt P cN k st r).1.bufs.length :=
        fun q hq => Nat.lt_of_lt_of_le (hv q (List.mem_cons_of_mem r hq)) hef.2
      rw [ih (strengthen_elementSt P cN k st r).1 hvs]
      exact List.map_congr_left fun q hq => by rw [hreads q hq]

/-- Adequacy of the instrumented embedding: on valid caller references, the
store pipeline returns a reference holding exactly the seed the pure
pipeline computes on the read values, and the error outcomes agree. -/
theorem hbedfSyncSt_models (P : Prims) (st : St) (ibm : List Nat) (secret : Nat)
    (opts : Opts) (hibm : ∀ q ∈ ibm, q < st.bufs.length) :
    (hbedfSyncSt P st ibm secret opts).2.2.map
        (fun r => (hbedfSyncSt P st ibm secret opts).1.read r) =
      hbedfSync P (ibm.map st.read) (st.read secret) opts := by
  have hkeyeq : (keySt P st secret (resolveSchema P opts.schema) opts.path).2.2 =
      key P (st.read secret) (resolveSchema P opts.schema) opts.path := rfl
  cases hv : validC opts.c with
  | error e =>
    simp only [hbedfSyncSt, hbedfStCore, hbedfSync, extract, hv, Except.bind]
    rfl
  | ok cq =>
    have hkf := keySt_frame P st secret (resolveSchema P opts.schema) opts.path
    have hsbm :
        List.map
          (strengthenSt P (keySt P st secret (resolveSchema P opts.schema) opts.path).1 ibm
            (keySt P st secret (resolveSchema P opts.schema) opts.path).2.2
            (qToUint32 cq)).1.read
          (strengthenSt P (keySt P st secret (resolveSchema P opts.schema) opts.path).1 ibm
            (keySt P st secret (resolveSchema P opts.schema) opts.path).2.2
            (qToUint32 cq)).2.2 =
        strengthen P (ibm.map st.read)
          (keySt P st secret (resolveSchema P opts.schema) opts.path).2.2 cq := by
      have hmodels2 :
          List.map
            (strengthenSt P (keySt P st secret (resolveSchema P opts.schema) opts.path).1 ibm
              (keySt P st secret (resolveSchema P opts.schema) opts.path).2.2
              (qToUint32 cq)).1.read
            (strengthenSt P (keySt P st secret (resolveSchema P opts.schema) opts.path).1 ibm
              (keySt P st secret (resolveSchema P opts.schema) opts.path).2.2
              (qToUint32 cq)).2.2 =
          ibm.map (fun q =>
            strengthen_go P
              (P.deriveChild (keySt P st secret (resolveSchema P opts.schema) opts.path).2.2
                1398035013).key 0 (qToUint32 cq)
              ((keySt P st secret (resolveSchema P opts.schema) opts.path).1.read q)) :=
        strengthenStGo_models P
          (P.deriveChild (keySt P st secret (resolveSchema P opts.schema) opts.path).2.2
            1398035013).key (qToUint32 cq) ibm
          (keySt P st secret (resolveSchema P opts.schema) opts.path).1
          (fun q hq => Nat.lt_of_lt_of_le (hibm q hq) hkf.2)
      rw [hmodels2]
      unfold strengthen
      rw [List.map_map]
      refine List.map_congr_left fun q hq => ?_
      rw [hkf.1 q (hibm q hq)]
      rfl
    cases hm : validMem opts.mem with
    | error e =>
      simp only [hbedfSyncSt, hbedfStCore, hbedfSync, extract, hv, hm, Except.bind,
        Except.map]
    | ok mq =>
      have hshm := shuffleSt_models P
        (strengthenSt P (keySt P st secret (resolveSchema P opts.schema) opts.path).1 ibm
          (keySt P st secret (resolveSchema P opts.schema) opts.path).2.2 (qToUint32 cq)).1
        (strengthenSt P (keySt P st secret (resolveSchema P opts.schema) opts.path).1 ibm
          (keySt P st secret (resolveSchema P opts.schema) opts.path).2.2 (qToUint32 cq)).2.2
        (keySt P st secret (resolveSchema P opts.schema) opts.path).2.2 (calcN mq)
      rw [hsbm] at hshm
      rcases hshr : shuffleSt P P.scrypt
          (strengthenSt P (keySt P st secret (resolveSchema P opts.schema) opts.path).1 ibm
            (keySt P st secret (resolveSchema P opts.schema) opts.path).2.2 (qToUint32 cq)).1
          (strengthenSt P (keySt P st secret (resolveSchema P opts.schema) opts.path).1 ibm
            (keySt P st secret (resolveSchema P opts.schema) opts.path).2.2 (qToUint32 cq)).2.2
          (keySt P st secret (resolveSchema P opts.schema) opts.path).2.2 (calcN mq)
        with ⟨st3, ev3, res3⟩
      rw [hshr] at hshm
      cases res3 with
      | error e =>
        have hsync : shuffleSync P
            (strengthen P (ibm.map st.read)
              (keySt P st secret (resolveSchema P opts.schema) opts.path).2.2 cq)
            (keySt P st secret (resolveSchema P opts.schema) opts.path).2.2
            (calcN mq) = .error e := by
          rw [← hshm]
          rfl
        simp only [hbedfSyncSt, hbedfStCore, hbedfSync, extract, hv, hm, hshr,
          Except.bind, Except.map, ← hkeyeq, hsync]
      | ok pbm =>
        have hsync : shuffleSync P
            (strengthen P (ibm.map st.read)
              (keySt P st secret (resolveSchema P opts.schema) opts.path).2.2 cq)
            (keySt P st secret (resolveSchema P opts.schema) opts.path).2.2
            (calcN mq) = .ok (st3.read pbm) := by
          rw [← hshm]
          rfl
        have hexm := expandSt_models P st3 pbm
          (keySt P st secret (resolveSchema P opts.schema) opts.path).2.2
          (resolveDsLen opts.dsLen)
        rcases hex : expandSt P st3 pbm
            (keySt P st secret (resolveSchema P opts.schema) opts.path).2.2
            (resolveDsLen opts.dsLen) with ⟨st4, ev4, res4⟩
        rw [hex] at hexm
        simp only [hbedfSyncSt, hbedfStCore, hbedfSync, extract, hv, hm, hshr, hex,
          Except.bind, Except.map, ← hkeyeq, hsync]
        exact hexm

end Hbedf
